import Mathlib

/-! # Wheel of Misfortune: the family partitioning engine (`family.c`)

A shallow embedding of `family.c` and the properties of its functions.

Modelling conventions.

* A C string is the `List Char` of its characters before the terminating NUL;
  `strcmp(a, b) == 0` is equality of these lists and `strlen` is `List.length`.
* A word reference (`char *` into the caller's word list) is a value of an
  arbitrary type `α`; `deref : α → List Char` reads the string it points to.
  The code never copies or changes a word, so `deref` is a fixed function.
* A `char **` block is a `List` of cells.  A cell of `word_ptrs` is a `Slot`:
  `junk` (allocated, never written), `null`, or `ptr w`.  A write at an index
  outside the block is undefined behaviour and makes the operation return
  `none`.
* The C type `int` is `Int`.  Signed overflow is undefined in C and needs more
  than `2^31 - 1` slots in one family; it is outside the model.
* `malloc`/`realloc` never fail here (in the code a failure ends the process
  with `exit(1)`).
* The linked list of `Family` nodes is the `List` of its nodes in `next`
  order; a `Family *` that points into the list is the position of its node
  (`Option Nat`, `none` for `NULL`).
* `family_increment`, the file's static variable, is the explicit parameter
  `k` of the functions that read it.
-/

namespace Misfortune

/-- One cell of a `word_ptrs` block. -/
inductive Slot (α : Type) where
  | junk : Slot α
  | null : Slot α
  | ptr : α → Slot α
  deriving DecidableEq, Repr

/-- The `Family` struct without its `next` field (the list order carries it). -/
structure Family (α : Type) where
  signature : List Char
  word_ptrs : List (Slot α)
  num_words : Int
  max_words : Int
  deriving DecidableEq, Repr

/-- The `malloc(sizeof(char *) * n)` block: `n` cells, none of them written. -/
def malloc_ptrs {α : Type} (n : Int) : List (Slot α) :=
  List.replicate n.toNat Slot.junk

/-- The `realloc(p, sizeof(char *) * n)` block: the old cells up to the new
size, followed by unwritten cells. -/
def realloc_ptrs {α : Type} (p : List (Slot α)) (n : Int) : List (Slot α) :=
  p.take n.toNat ++ List.replicate (n.toNat - p.length) Slot.junk

/-- The store `p[i] = v`; `none` when `i` is outside the block. -/
def store {α : Type} (p : List (Slot α)) (i : Int) (v : Slot α) : Option (List (Slot α)) :=
  if 0 ≤ i ∧ i < p.length then some (p.set i.toNat v) else none

/-- Runs `n` iterations of `p[i] = NULL; i++`. -/
def null_loop {α : Type} (p : List (Slot α)) (i : Int) : Nat → Option (List (Slot α))
  | 0 => some p
  | n + 1 => (store p i Slot.null).bind fun q => null_loop q (i + 1) n

/-- The loop `for (int i = lo; i <= hi; i++) p[i] = NULL;`, which runs
`hi + 1 - lo` times when that is positive and not at all otherwise. -/
def null_fill {α : Type} (p : List (Slot α)) (lo hi : Int) : Option (List (Slot α)) :=
  null_loop p lo (hi + 1 - lo).toNat

/-- The function `new_family` (lines 50-80) with `family_increment = k`. -/
def new_family {α : Type} (k : Int) (str : List Char) : Option (Family α) :=
  (null_fill (malloc_ptrs (k + 1)) 0 k).map fun p =>
    { signature := str, word_ptrs := p, num_words := 0, max_words := k }

/-- The body of `add_word_to_family` (lines 91-104) for a non-NULL `fam`. -/
def add_word {α : Type} (k : Int) (fam : Family α) (word : α) : Option (Family α) :=
  let grown : Option (Family α) :=
    if fam.num_words = fam.max_words then
      let max_words := fam.max_words + k
      (null_fill (realloc_ptrs fam.word_ptrs (max_words + 1)) (fam.num_words + 1) max_words).map
        fun p => { fam with max_words := max_words, word_ptrs := p }
    else some fam
  grown.bind fun g =>
    (store g.word_ptrs g.num_words (Slot.ptr word)).map fun p =>
      { g with word_ptrs := p, num_words := g.num_words + 1 }

/-- The function `add_word_to_family` (lines 87-105): the state of `*fam`
after the call (`none` inside for a NULL `fam`, which is left alone). -/
def add_word_to_family {α : Type} (k : Int) (fam : Option (Family α)) (word : α) :
    Option (Option (Family α)) :=
  match fam with
  | none => some none
  | some f => (add_word k f word).map some

/-- The scan of `find_family` from the node at position `i`. -/
def find_family_from {α : Type} (sig : List Char) : List (Family α) → Nat → Option Nat
  | [], _ => none
  | f :: rest, i => if f.signature = sig then some i else find_family_from sig rest (i + 1)

/-- The function `find_family` (lines 112-121). -/
def find_family {α : Type} (fam_list : List (Family α)) (sig : List Char) : Option Nat :=
  find_family_from sig fam_list 0

/-- The loop of `find_biggest_family`: `rest` are the nodes from `fam` on,
`i` is the position of `fam`, `m` the position of `max_fam` and `mf` its node. -/
def find_biggest_from {α : Type} : List (Family α) → Nat → Nat → Family α → Nat
  | [], _, m, _ => m
  | f :: rest, i, m, mf =>
    if f.num_words > mf.num_words then find_biggest_from rest (i + 1) i f
    else find_biggest_from rest (i + 1) m mf

/-- The function `find_biggest_family` (lines 129-139). -/
def find_biggest_family {α : Type} (fam_list : List (Family α)) : Option Nat :=
  match fam_list with
  | [] => none
  | f :: _ => some (find_biggest_from fam_list 0 0 f)

/-- The signature loop of `generate_families` (lines 173-182). -/
def signature_of (word : List Char) (letter : Char) : List Char :=
  word.map fun c => if c = letter then letter else '_'

/-- The local variables of `generate_families` that live across iterations. -/
structure GenState (α : Type) where
  fam_list : List (Family α)
  end_ : Option Nat
  size_fam_list : Int
  deriving DecidableEq, Repr

/-- The assignment `end->next = fam` for a fresh node `fam`: the list is cut
after the node `end` and continues with `fam`. -/
def set_next {α : Type} (fam_list : List (Family α)) (end_ : Option Nat) (fam : Family α) :
    Option (List (Family α)) :=
  match end_ with
  | none => none
  | some e => if e < fam_list.length then some (fam_list.take (e + 1) ++ [fam]) else none

/-- The call `add_word_to_family(fam, word)` on the node at position `fam`. -/
def add_word_at {α : Type} (k : Int) (fam_list : List (Family α)) (fam : Nat) (word : α) :
    Option (List (Family α)) :=
  match fam_list[fam]? with
  | none => none
  | some f =>
    match add_word_to_family k (some f) word with
    | some (some g) => some (fam_list.set fam g)
    | _ => none

/-- One iteration of the `while` loop of `generate_families` (lines 171-201). -/
def generate_step {α : Type} (deref : α → List Char) (k : Int) (letter : Char)
    (st : GenState α) (word : α) : Option (GenState α) :=
  let sig := signature_of (deref word) letter
  let found : Option (GenState α × Nat) :=
    match st.fam_list with
    | [] =>
      (new_family k sig).map fun nf =>
        ({ fam_list := [nf], end_ := some 0, size_fam_list := st.size_fam_list + 1 }, 0)
    | _ :: _ =>
      match find_family st.fam_list sig with
      | some i => some (st, i)
      | none =>
        (new_family k sig).bind fun nf =>
          (set_next st.fam_list st.end_ nf).map fun l =>
            ({ fam_list := l, end_ := some (l.length - 1),
               size_fam_list := st.size_fam_list + 1 }, l.length - 1)
  found.bind fun r =>
    (add_word_at k r.1.fam_list r.2 word).map fun l => { r.1 with fam_list := l }

/-- The `while (word_list[wrd_num] != NULL)` loop of `generate_families`, on
the cells of the word list from `wrd_num` on.  Running off the block without
meeting a NULL cell is an out-of-bounds read (`none`). -/
def generate_loop {α : Type} (deref : α → List Char) (k : Int) (letter : Char) :
    List (Option α) → GenState α → Option (GenState α)
  | [], _ => none
  | none :: _, st => some st
  | some word :: rest, st =>
    (generate_step deref k letter st word).bind fun st1 => generate_loop deref k letter rest st1

/-- The function `generate_families` (lines 162-204).  `word_list` is `none`
for a NULL pointer and otherwise the cells of the block it points to. -/
def generate_families {α : Type} (deref : α → List Char) (k : Int)
    (word_list : Option (List (Option α))) (letter : Char) : Option (List (Family α)) :=
  match word_list with
  | none => some []
  | some cells =>
    (generate_loop deref k letter cells
      { fam_list := [], end_ := none, size_fam_list := 0 }).map fun st => st.fam_list

/-! ## Reference grouping (from the specification) -/

/-- The distinct elements of a list, each at the place of its first occurrence. -/
def first_seen : List (List Char) → List (List Char)
  | [] => []
  | s :: rest => s :: (first_seen rest).filter fun t => t ≠ s

/-- The grouping the specification describes: one group for each distinct
signature, in order of first occurrence, holding the words with that signature
in source order. -/
def reference_grouping {α : Type} (deref : α → List Char) (ws : List α) (letter : Char) :
    List (List Char × List α) :=
  (first_seen (ws.map fun w => signature_of (deref w) letter)).map fun s =>
    (s, ws.filter fun w => signature_of (deref w) letter = s)

/-- The words a family holds: the first `num_words` cells of `word_ptrs`. -/
def held {α : Type} (f : Family α) : List (Slot α) :=
  f.word_ptrs.take f.num_words.toNat

/-- Appends the words of `ws`, in order, with `add_word_to_family`. -/
def append_all {α : Type} (k : Int) : Option (Family α) → List α → Option (Option (Family α))
  | fam, [] => some fam
  | fam, w :: ws => (add_word_to_family k fam w).bind fun g => append_all k g ws

/-- The family `add_word_to_family` leaves behind, in closed form. -/
def appended {α : Type} (k : Int) (f : Family α) (w : α) : Family α :=
  { signature := f.signature
    word_ptrs := f.word_ptrs.set f.num_words.toNat (Slot.ptr w)
      ++ (if f.num_words = f.max_words then List.replicate k.toNat Slot.null else [])
    num_words := f.num_words + 1
    max_words := if f.num_words = f.max_words then f.max_words + k else f.max_words }

/-- The family `f` holds exactly the references `ws`, in order, in a block of
`max_words + 1` cells whose other cells are NULL. -/
def Holds {α : Type} (f : Family α) (ws : List α) : Prop :=
  f.num_words = ws.length ∧ f.num_words ≤ f.max_words ∧
    f.word_ptrs = ws.map Slot.ptr ++ List.replicate ((f.max_words - f.num_words).toNat + 1) Slot.null

/-- Adds the word `w` with signature `s` to a grouping: to the first group
with that signature, or to a new last group when there is none. -/
def group_add {α : Type} : List (List Char × List α) → List Char → α → List (List Char × List α)
  | [], s, w => [(s, [w])]
  | g :: G, s, w => if g.1 = s then (g.1, g.2 ++ [w]) :: G else g :: group_add G s w

/-- The family list `fams` stores the grouping `G`, group by group. -/
def Represents {α : Type} (fams : List (Family α)) (G : List (List Char × List α)) : Prop :=
  List.Forall₂ (fun f g => f.signature = g.1 ∧ Holds f g.2) fams G

/-- The tail pointer `end` of `generate_families` points to the last node. -/
def EndOk {α : Type} (st : GenState α) : Prop :=
  st.fam_list ≠ [] → st.end_ = some (st.fam_list.length - 1)

/-- What `print_families` shows of a family: signature, count and held words. -/
def shown {α : Type} (f : Family α) : List Char × Int × List (Slot α) :=
  (f.signature, f.num_words, held f)

/-- The held cells of all families of a list, laid end to end in list order. -/
def all_held {α : Type} : List (Family α) → List (Slot α)
  | [] => []
  | f :: rest => held f ++ all_held rest

/-- The sum of `num_words` over the families of a list. -/
def total_words {α : Type} : List (Family α) → Int
  | [] => 0
  | f :: rest => f.num_words + total_words rest

/-- The read `p[i]`; `none` when `i` is outside the block. -/
def load {α : Type} (p : List (Slot α)) (i : Int) : Option (Slot α) :=
  if 0 ≤ i ∧ i < p.length then p[i.toNat]? else none

/-- Runs `n` iterations of `dst[i] = src[i]; i++`. -/
def copy_loop {α : Type} (src dst : List (Slot α)) (i : Int) : Nat → Option (List (Slot α))
  | 0 => some dst
  | n + 1 =>
    (load src i).bind fun v => (store dst i v).bind fun d => copy_loop src d (i + 1) n

/-- The function `get_new_word_list` (lines 219-237): the state of `*fam` after
the call, which only reads it, and the returned block (`none` inside for the
NULL result).  The loop `for (int i = 0; i < length; i++)` runs `length` times
when `length` is positive and not at all otherwise. -/
def get_new_word_list {α : Type} (fam : Option (Family α)) :
    Option (Option (Family α) × Option (List (Slot α))) :=
  match fam with
  | none => some (none, none)
  | some f =>
    let length := f.num_words
    let wrd_ptrs := f.word_ptrs
    let word_pointers : List (Slot α) := malloc_ptrs (length + 1)
    (store word_pointers length Slot.null).bind fun p =>
      (copy_loop wrd_ptrs p 0 length.toNat).map fun q => (some f, some q)

/-- The function `get_random_word_from_family` (lines 243-245), with `r` the
value `rand()` returns.  `%` is the C remainder, which truncates; a NULL
`fam`, a zero divisor and a read outside the block are undefined (`none`). -/
def get_random_word_from_family {α : Type} (fam : Option (Family α)) (r : Int) :
    Option (Slot α) :=
  match fam with
  | none => none
  | some f => if f.num_words = 0 then none else load f.word_ptrs (Int.tmod r f.num_words)

/-- The representation invariant of a `Family` node: a count between 0 and
the capacity, and a `word_ptrs` block of `max_words + 1` cells. -/
def WellFormed {α : Type} (f : Family α) : Prop :=
  0 ≤ f.num_words ∧ f.num_words ≤ f.max_words ∧ (f.word_ptrs.length : Int) = f.max_words + 1

/-! ## Blocks of cells -/

theorem store_append {α : Type} (a : List (Slot α)) (x v : Slot α) (t : List (Slot α)) :
    store (a ++ x :: t) (a.length : Int) v = some (a ++ v :: t) := by
  unfold store
  have h : (0 : Int) ≤ a.length ∧ (a.length : Int) < ((a ++ x :: t).length : Int) := by
    constructor
    · omega
    · simp only [List.length_append, List.length_cons]; omega
  rw [if_pos h]
  simp

theorem null_loop_append {α : Type} (b : List (Slot α)) :
    ∀ (a c : List (Slot α)),
      null_loop (a ++ b ++ c) (a.length : Int) b.length
        = some (a ++ List.replicate b.length Slot.null ++ c) := by
  induction b with
  | nil => intro a c; simp [null_loop]
  | cons x t ih =>
    intro a c
    have hs : store (a ++ x :: t ++ c) (a.length : Int) Slot.null
        = some (a ++ Slot.null :: (t ++ c)) := by
      have := store_append a x Slot.null (t ++ c)
      simpa using this
    have ih1 := ih (a ++ [Slot.null]) c
    simp only [List.length_cons, null_loop, hs, Option.some_bind]
    have e1 : a ++ Slot.null :: (t ++ c) = a ++ [Slot.null] ++ t ++ c := by simp
    have e2 : ((a.length : Int) + 1) = ((a ++ [Slot.null]).length : Int) := by simp
    rw [e1, e2, ih1]
    simp [List.replicate_succ]

theorem null_fill_junk {α : Type} (a : List (Slot α)) (n : Nat) (hi : Int)
    (h : hi + 1 - a.length = n) :
    null_fill (a ++ List.replicate n Slot.junk) (a.length : Int) hi
      = some (a ++ List.replicate n Slot.null) := by
  unfold null_fill
  have hn : (hi + 1 - (a.length : Int)).toNat = n := by omega
  rw [hn]
  have := null_loop_append (List.replicate n (Slot.junk : Slot α)) a []
  simpa using this

theorem new_family_eq {α : Type} (k : Int) (hk : 0 ≤ k) (str : List Char) :
    (new_family k str : Option (Family α))
      = some { signature := str, word_ptrs := List.replicate (k.toNat + 1) Slot.null,
               num_words := 0, max_words := k } := by
  unfold new_family malloc_ptrs
  have h1 : (k + 1).toNat = k.toNat + 1 := by omega
  have := null_fill_junk ([] : List (Slot α)) (k.toNat + 1) k (by simp; omega)
  simp only [List.nil_append, List.length_nil, Nat.cast_zero] at this
  rw [h1, this]
  rfl

/-! ## One append -/

theorem add_word_eq {α : Type} (k : Int) (hk : 0 ≤ k) (f : Family α) (w : α)
    (h0 : 0 ≤ f.num_words) (h1 : f.num_words ≤ f.max_words)
    (hlen : (f.word_ptrs.length : Int) = f.max_words + 1) :
    add_word k f w = some (appended k f w) := by
  have hst : ∀ (r : List (Slot α)),
      store (f.word_ptrs ++ r) f.num_words (Slot.ptr w)
        = some (f.word_ptrs.set f.num_words.toNat (Slot.ptr w) ++ r) := by
    intro r
    unfold store
    have hin : 0 ≤ f.num_words ∧ f.num_words < ((f.word_ptrs ++ r).length : Int) := by
      refine ⟨h0, ?_⟩
      simp only [List.length_append, Nat.cast_add]; omega
    rw [if_pos hin]
    have hlt : f.num_words.toNat < f.word_ptrs.length := by omega
    rw [List.set_append_left _ _ hlt]
  unfold add_word appended
  by_cases hfull : f.num_words = f.max_words
  · have hre : realloc_ptrs f.word_ptrs (f.max_words + k + 1)
        = f.word_ptrs ++ List.replicate k.toNat Slot.junk := by
      unfold realloc_ptrs
      have e1 : (f.max_words + k + 1).toNat - f.word_ptrs.length = k.toNat := by omega
      have e2 : f.word_ptrs.length ≤ (f.max_words + k + 1).toNat := by omega
      rw [e1, List.take_of_length_le e2]
    have hnl : f.num_words + 1 = (f.word_ptrs.length : Int) := by omega
    have hfill := null_fill_junk f.word_ptrs k.toNat (f.max_words + k) (by omega)
    simp only [if_pos hfull, hre, hnl, hfill, Option.map_some', Option.some_bind]
    have := hst (List.replicate k.toNat Slot.null)
    simp only [this, Option.map_some']
  · have := hst []
    simp only [List.append_nil] at this
    simp only [if_neg hfull, Option.some_bind, this, Option.map_some', List.append_nil]

theorem new_family_holds {α : Type} (k : Int) (hk : 0 ≤ k) (str : List Char) :
    ∃ f : Family α, new_family k str = some f ∧ f.signature = str ∧ Holds f [] := by
  refine ⟨_, new_family_eq k hk str, rfl, ?_⟩
  refine ⟨rfl, hk, ?_⟩
  simp

theorem Holds.length_eq {α : Type} {f : Family α} {ws : List α} (h : Holds f ws) :
    (f.word_ptrs.length : Int) = f.max_words + 1 := by
  obtain ⟨h1, h2, h3⟩ := h
  rw [h3]
  simp only [List.length_append, List.length_map, List.length_replicate, Nat.cast_add]
  omega

theorem Holds.held_eq {α : Type} {f : Family α} {ws : List α} (h : Holds f ws) :
    held f = ws.map Slot.ptr := by
  obtain ⟨h1, h2, h3⟩ := h
  unfold held
  rw [h3, h1]
  simp

theorem appended_holds {α : Type} (k : Int) (hk : 1 ≤ k) (f : Family α) (ws : List α) (w : α)
    (h : Holds f ws) : Holds (appended k f w) (ws ++ [w]) := by
  obtain ⟨h1, h2, h3⟩ := h
  have hset : ∀ n : Nat,
      (ws.map Slot.ptr ++ List.replicate (n + 1) Slot.null).set ws.length (Slot.ptr w)
        = (ws ++ [w]).map Slot.ptr ++ List.replicate n (Slot.null : Slot α) := by
    intro n
    have : ws.length = (ws.map (Slot.ptr : α → Slot α)).length := by simp
    rw [List.replicate_succ]
    conv => lhs; rw [this]
    simp
  refine ⟨?_, ?_, ?_⟩
  · simp only [appended, h1, List.length_append, List.length_singleton, Nat.cast_add,
      Nat.cast_one]
  · simp only [appended]
    split <;> omega
  · simp only [appended]
    have e : f.num_words.toNat = ws.length := by omega
    rw [h3, e, hset]
    by_cases hfull : f.num_words = f.max_words
    · simp only [if_pos hfull, List.append_assoc, ← List.replicate_add]
      congr 2
      omega
    · simp only [if_neg hfull, List.append_nil]
      congr 2
      omega

theorem add_word_holds {α : Type} (k : Int) (hk : 1 ≤ k) (f : Family α) (ws : List α) (w : α)
    (h : Holds f ws) :
    ∃ g, add_word k f w = some g ∧ g.signature = f.signature ∧ Holds g (ws ++ [w]) := by
  refine ⟨appended k f w, ?_, rfl, appended_holds k hk f ws w h⟩
  exact add_word_eq k (by omega) f w (by have := h.1; omega) h.2.1 h.length_eq

/-! ## The reference grouping, one word at a time -/

theorem mem_first_seen (l : List (List Char)) (s : List Char) : s ∈ first_seen l ↔ s ∈ l := by
  induction l with
  | nil => simp [first_seen]
  | cons a l ih =>
    simp only [first_seen, List.mem_cons, List.mem_filter, ih, decide_eq_true_eq]
    by_cases h : s = a
    · simp [h]
    · simp [h]

theorem first_seen_nodup (l : List (List Char)) : (first_seen l).Nodup := by
  induction l with
  | nil => simp [first_seen]
  | cons a l ih =>
    simp only [first_seen, List.nodup_cons, List.mem_filter, decide_eq_true_eq]
    exact ⟨fun h => h.2 rfl, ih.filter _⟩

theorem first_seen_snoc (l : List (List Char)) (s : List Char) :
    first_seen (l ++ [s]) = if s ∈ l then first_seen l else first_seen l ++ [s] := by
  induction l with
  | nil => simp [first_seen]
  | cons a l ih =>
    rw [List.cons_append, first_seen, ih, first_seen]
    by_cases h1 : s ∈ l
    · simp [h1]
    · by_cases h2 : s = a
      · subst h2
        simp [h1, List.filter_append]
      · simp [h1, h2, List.filter_append]

theorem group_add_map {α : Type} (F : List Char → List α) (s : List Char) (w : α) :
    ∀ K : List (List Char), K.Nodup →
      group_add (K.map fun t => (t, F t)) s w
        = if s ∈ K then K.map fun t => (t, F t ++ if t = s then [w] else [])
          else (K.map fun t => (t, F t)) ++ [(s, [w])] := by
  intro K
  induction K with
  | nil => intro _; simp [group_add]
  | cons a K ih =>
    intro hnd
    rw [List.nodup_cons] at hnd
    simp only [List.map_cons, group_add, List.mem_cons]
    by_cases h : a = s
    · subst h
      simp only [if_true, true_or, List.append_cancel_left_eq, List.cons.injEq, true_and]
      apply List.map_congr_left
      intro t ht
      have : t ≠ a := fun e => hnd.1 (e ▸ ht)
      simp [this]
    · have h2 : ¬ s = a := fun e => h e.symm
      rw [if_neg h, ih hnd.2]
      by_cases h3 : s ∈ K
      · simp [h3, h]
      · simp [h3, h2]

theorem reference_grouping_snoc {α : Type} (deref : α → List Char) (letter : Char)
    (pre : List α) (w : α) :
    reference_grouping deref (pre ++ [w]) letter
      = group_add (reference_grouping deref pre letter) (signature_of (deref w) letter) w := by
  unfold reference_grouping
  rw [group_add_map _ _ _ _ (first_seen_nodup _)]
  simp only [List.map_append, List.map_cons, List.map_nil, first_seen_snoc, mem_first_seen]
  by_cases h : signature_of (deref w) letter ∈ pre.map fun w => signature_of (deref w) letter
  · rw [if_pos h, if_pos h]
    apply List.map_congr_left
    intro t _
    by_cases e : t = signature_of (deref w) letter
    · simp [List.filter_append, e]
    · have e2 : ¬ signature_of (deref w) letter = t := fun x => e x.symm
      simp [List.filter_append, e, e2]
  · rw [if_neg h, if_neg h]
    have hnone : pre.filter (fun v => signature_of (deref v) letter = signature_of (deref w) letter)
        = [] := by
      rw [List.filter_eq_nil_iff]
      intro v hv hc
      apply h
      rw [List.mem_map]
      exact ⟨v, hv, by simpa using hc⟩
    simp only [List.map_append, List.map_cons, List.map_nil, List.filter_append, hnone,
      List.nil_append]
    congr 1
    · apply List.map_congr_left
      intro t ht
      have e2 : ¬ signature_of (deref w) letter = t := by
        intro x
        apply h
        rw [x]
        exact (mem_first_seen _ _).1 ht
      simp [e2]
    · simp

/-! ## Lookup -/

theorem find_family_from_succ {α : Type} (s : List Char) (l : List (Family α)) :
    ∀ n, find_family_from s l (n + 1) = (find_family_from s l n).map fun i => i + 1 := by
  induction l with
  | nil => intro n; rfl
  | cons f l ih =>
    intro n
    simp only [find_family_from]
    split
    · rfl
    · exact ih (n + 1)

theorem find_family_cons {α : Type} (s : List Char) (f : Family α) (l : List (Family α)) :
    find_family (f :: l) s
      = if f.signature = s then some 0 else (find_family l s).map fun i => i + 1 := by
  unfold find_family
  simp only [find_family_from, Nat.zero_add]
  split
  · rfl
  · exact find_family_from_succ s l 0

theorem find_family_eq_none {α : Type} (s : List Char) (l : List (Family α)) :
    find_family l s = none ↔ ∀ f ∈ l, f.signature ≠ s := by
  induction l with
  | nil => simp [find_family, find_family_from]
  | cons f l ih =>
    rw [find_family_cons]
    by_cases h : f.signature = s
    · simp [h]
    · simp [h, ih]

theorem find_family_eq_some {α : Type} (s : List Char) (l : List (Family α)) :
    ∀ i, find_family l s = some i →
      (∃ f, l[i]? = some f ∧ f.signature = s) ∧
        ∀ j, j < i → ∀ f, l[j]? = some f → f.signature ≠ s := by
  induction l with
  | nil => intro i h; simp [find_family, find_family_from] at h
  | cons f l ih =>
    intro i h
    rw [find_family_cons] at h
    by_cases hs : f.signature = s
    · rw [if_pos hs] at h
      cases h
      exact ⟨⟨f, by simp, hs⟩, fun j hj => absurd hj (Nat.not_lt_zero j)⟩
    · rw [if_neg hs] at h
      cases hl : find_family l s with
      | none => rw [hl] at h; cases h
      | some j0 =>
        rw [hl] at h
        cases h
        obtain ⟨⟨g, hg, hgs⟩, hbefore⟩ := ih j0 hl
        refine ⟨⟨g, by simpa using hg, hgs⟩, ?_⟩
        intro j hj f1 hf1
        cases j with
        | zero =>
          simp only [List.getElem?_cons_zero, Option.some.injEq] at hf1
          rw [← hf1]; exact hs
        | succ j1 =>
          simp only [List.getElem?_cons_succ] at hf1
          exact hbefore j1 (by simp only at hj; omega) f1 hf1

/-! ## One iteration of the generation loop -/

theorem represents_found {α : Type} (s : List Char) (w : α) (fams : List (Family α))
    (G : List (List Char × List α)) (h : Represents fams G) :
    ∀ i, find_family fams s = some i →
      ∃ f ws, fams[i]? = some f ∧ Holds f ws ∧
        ∀ g : Family α, g.signature = f.signature → Holds g (ws ++ [w]) →
          Represents (fams.set i g) (group_add G s w) := by
  unfold Represents at h
  induction h with
  | nil => intro i hi; simp [find_family, find_family_from] at hi
  | @cons f g0 l G0 hfg hrest ih =>
    intro i hi
    rw [find_family_cons] at hi
    by_cases hs : f.signature = s
    · rw [if_pos hs] at hi
      cases hi
      refine ⟨f, g0.2, by simp, hfg.2, ?_⟩
      intro g hg1 hg2
      have e : g0.1 = s := by rw [← hfg.1]; exact hs
      simp only [List.set_cons_zero, group_add, if_pos e]
      exact List.Forall₂.cons ⟨by rw [hg1]; exact hfg.1, hg2⟩ hrest
    · rw [if_neg hs] at hi
      cases hl : find_family l s with
      | none => rw [hl] at hi; cases hi
      | some j =>
        rw [hl] at hi
        cases hi
        obtain ⟨f1, ws, hf1, hh, hstep⟩ := ih j hl
        refine ⟨f1, ws, by simpa using hf1, hh, ?_⟩
        intro g hg1 hg2
        have e : ¬ g0.1 = s := by rw [← hfg.1]; exact hs
        simp only [List.set_cons_succ, group_add, if_neg e]
        exact List.Forall₂.cons hfg (hstep g hg1 hg2)

theorem represents_fresh {α : Type} (s : List Char) (w : α) (fams : List (Family α))
    (G : List (List Char × List α)) (h : Represents fams G) (hnone : find_family fams s = none)
    (g : Family α) (hg1 : g.signature = s) (hg2 : Holds g [w]) :
    Represents (fams ++ [g]) (group_add G s w) := by
  unfold Represents at h
  induction h with
  | nil =>
    simp only [List.nil_append, group_add]
    exact List.Forall₂.cons ⟨hg1, hg2⟩ List.Forall₂.nil
  | @cons f g0 l G0 hfg hrest ih =>
    rw [find_family_cons] at hnone
    by_cases hs : f.signature = s
    · rw [if_pos hs] at hnone; cases hnone
    · rw [if_neg hs] at hnone
      have hl : find_family l s = none := by
        cases hf : find_family l s with
        | none => rfl
        | some j => rw [hf] at hnone; cases hnone
      have e : ¬ g0.1 = s := by rw [← hfg.1]; exact hs
      simp only [List.cons_append, group_add, if_neg e]
      exact List.Forall₂.cons hfg (ih hl)

theorem add_word_at_holds {α : Type} (k : Int) (hk : 1 ≤ k) (fams : List (Family α)) (i : Nat)
    (f : Family α) (ws : List α) (w : α) (hi : fams[i]? = some f) (h : Holds f ws) :
    add_word_at k fams i w = some (fams.set i (appended k f w)) := by
  have := add_word_eq k (by omega) f w (by have := h.1; omega) h.2.1 h.length_eq
  simp only [add_word_at, hi, add_word_to_family, this, Option.map_some']

theorem generate_step_represents {α : Type} (deref : α → List Char) (k : Int) (hk : 1 ≤ k)
    (letter : Char) (st : GenState α) (G : List (List Char × List α)) (w : α)
    (h : Represents st.fam_list G) (he : EndOk st) :
    ∃ st1, generate_step deref k letter st w = some st1 ∧
      Represents st1.fam_list (group_add G (signature_of (deref w) letter) w) ∧ EndOk st1 := by
  obtain ⟨nf, hnf, hnfs, hnfh⟩ :=
    new_family_holds (α := α) k (by omega) (signature_of (deref w) letter)
  have hnew : Holds (appended k nf w) [w] := appended_holds k hk nf [] w hnfh
  have hnews : (appended k nf w).signature = signature_of (deref w) letter := hnfs
  cases hfl : st.fam_list with
  | nil =>
    have hG : G = [] := by
      rw [hfl] at h
      cases h
      rfl
    have hat := add_word_at_holds k hk [nf] 0 nf [] w (by simp) hnfh
    refine ⟨{ fam_list := [appended k nf w], end_ := some 0,
              size_fam_list := st.size_fam_list + 1 }, ?_, ?_, ?_⟩
    · simp only [generate_step, hfl, hnf, Option.map_some', Option.some_bind, hat,
        List.set_cons_zero]
    · rw [hG]
      simp only [group_add]
      exact List.Forall₂.cons ⟨hnews, hnew⟩ List.Forall₂.nil
    · intro _
      simp
  | cons f0 t =>
    cases hfind : find_family st.fam_list (signature_of (deref w) letter) with
    | some i =>
      obtain ⟨f, ws, hfi, hfh, hstep⟩ := represents_found _ w _ _ h i hfind
      have hat := add_word_at_holds k hk st.fam_list i f ws w hfi hfh
      refine ⟨{ st with fam_list := st.fam_list.set i (appended k f w) }, ?_, ?_, ?_⟩
      · rw [hfl] at hfind hat
        simp only [generate_step, hfl, hfind, Option.some_bind, hat, Option.map_some']
      · exact hstep _ rfl (appended_holds k hk f ws w hfh)
      · intro _
        have := he (by rw [hfl]; simp)
        simp only [List.length_set]
        exact this
    | none =>
      have hend : st.end_ = some (st.fam_list.length - 1) := he (by rw [hfl]; simp)
      have hsn : set_next st.fam_list st.end_ nf = some (st.fam_list ++ [nf]) := by
        have hlt : st.fam_list.length - 1 < st.fam_list.length := by
          rw [hfl]; simp
        have htk : st.fam_list.take (st.fam_list.length - 1 + 1) = st.fam_list := by
          apply List.take_of_length_le
          omega
        simp only [set_next, hend, if_pos hlt, htk]
      have hat := add_word_at_holds k hk (st.fam_list ++ [nf]) st.fam_list.length nf [] w
        (by simp) hnfh
      have hset : (st.fam_list ++ [nf]).set st.fam_list.length (appended k nf w)
          = st.fam_list ++ [appended k nf w] := by
        simp
      refine ⟨{ fam_list := st.fam_list ++ [appended k nf w],
                end_ := some ((st.fam_list ++ [nf]).length - 1),
                size_fam_list := st.size_fam_list + 1 }, ?_, ?_, ?_⟩
      · rw [hset] at hat
        have hlast : (st.fam_list ++ [nf]).length - 1 = st.fam_list.length := by simp
        rw [hfl] at hfind hsn hat hlast
        simp only [generate_step, hfl, hfind, hnf, Option.some_bind, hsn, Option.map_some',
          hlast, hat]
      · exact represents_fresh _ w _ _ h hfind _ hnews hnew
      · intro _
        simp

theorem generate_loop_represents {α : Type} (deref : α → List Char) (k : Int) (hk : 1 ≤ k)
    (letter : Char) (rest : List (Option α)) (ws : List α) :
    ∀ (pre : List α) (st : GenState α),
      Represents st.fam_list (reference_grouping deref pre letter) → EndOk st →
      ∃ st1, generate_loop deref k letter (ws.map some ++ none :: rest) st = some st1 ∧
        Represents st1.fam_list (reference_grouping deref (pre ++ ws) letter) := by
  induction ws with
  | nil =>
    intro pre st h _
    exact ⟨st, by simp [generate_loop], by simpa using h⟩
  | cons w ws ih =>
    intro pre st h he
    obtain ⟨st1, hs1, hr1, he1⟩ := generate_step_represents deref k hk letter st _ w h he
    rw [← reference_grouping_snoc] at hr1
    obtain ⟨st2, hs2, hr2⟩ := ih (pre ++ [w]) st1 hr1 he1
    refine ⟨st2, ?_, ?_⟩
    · simp only [List.map_cons, List.cons_append, generate_loop, hs1, Option.some_bind]
      exact hs2
    · simpa using hr2

theorem generate_families_represents {α : Type} (deref : α → List Char) (k : Int) (hk : 1 ≤ k)
    (ws : List α) (rest : List (Option α)) (letter : Char) :
    ∃ fams, generate_families deref k (some (ws.map some ++ none :: rest)) letter = some fams ∧
      Represents fams (reference_grouping deref ws letter) := by
  obtain ⟨st1, hs1, hr1⟩ := generate_loop_represents deref k hk letter rest ws []
    { fam_list := [], end_ := none, size_fam_list := 0 }
    (by simp only [reference_grouping, List.map_nil, first_seen]; exact List.Forall₂.nil)
    (by intro h; exact absurd rfl h)
  refine ⟨st1.fam_list, ?_, by simpa using hr1⟩
  simp only [generate_families, hs1, Option.map_some']

theorem represents_map {α : Type} (F : List Char → List α) :
    ∀ (K : List (List Char)) (fams : List (Family α)),
      Represents fams (K.map fun t => (t, F t)) →
        fams.map (fun f => f.signature) = K ∧ ∀ f ∈ fams, Holds f (F f.signature) := by
  intro K
  induction K with
  | nil =>
    intro fams h
    cases h
    simp
  | cons a K ih =>
    intro fams h
    cases h with
    | cons hfg hrest =>
      obtain ⟨h1, h2⟩ := ih _ hrest
      refine ⟨by simp [hfg.1, h1], ?_⟩
      intro f hf
      rcases List.mem_cons.1 hf with e | e
      · subst e
        have := hfg.2
        rw [hfg.1]
        exact this
      · exact h2 f e

/-- The shape of the list `generate_families` returns: one family for each
distinct signature in order of first occurrence, each holding the words with
its signature in source order. -/
theorem generate_families_shape {α : Type} (deref : α → List Char) (k : Int) (hk : 1 ≤ k)
    (ws : List α) (rest : List (Option α)) (letter : Char) :
    ∃ fams, generate_families deref k (some (ws.map some ++ none :: rest)) letter = some fams ∧
      fams.map (fun f => f.signature) = first_seen (ws.map fun w => signature_of (deref w) letter) ∧
      ∀ f ∈ fams, Holds f (ws.filter fun w => signature_of (deref w) letter = f.signature) := by
  obtain ⟨fams, h1, h2⟩ := generate_families_represents deref k hk ws rest letter
  exact ⟨fams, h1, represents_map _ _ fams h2⟩

theorem represents_shown {α : Type} (fams : List (Family α)) (G : List (List Char × List α))
    (h : Represents fams G) :
    fams.map shown = G.map fun g => (g.1, (g.2.length : Int), g.2.map Slot.ptr) := by
  unfold Represents at h
  induction h with
  | nil => rfl
  | @cons f g l G0 hfg _ ih =>
    simp only [List.map_cons, ih, List.cons.injEq, and_true]
    simp only [shown, hfg.1, hfg.2.1, hfg.2.held_eq]

theorem all_held_group_add {α : Type} (s : List Char) (w : α) :
    ∀ (G : List (List Char × List α)),
      ((group_add G s w).map fun g => g.2).flatten.Perm ((G.map fun g => g.2).flatten ++ [w]) := by
  intro G
  induction G with
  | nil => simp [group_add]
  | cons g G ih =>
    simp only [group_add]
    split
    · simp only [List.map_cons, List.flatten_cons, List.append_assoc]
      apply List.Perm.append_left
      exact List.perm_append_comm
    · simp only [List.map_cons, List.flatten_cons, List.append_assoc]
      exact List.Perm.append_left _ ih

theorem reference_grouping_perm {α : Type} (deref : α → List Char) (letter : Char) (ws : List α) :
    ((reference_grouping deref ws letter).map fun g => g.2).flatten.Perm ws := by
  induction ws using List.reverseRecOn with
  | nil => simp [reference_grouping, first_seen]
  | append_singleton pre w ih =>
    rw [reference_grouping_snoc]
    exact (all_held_group_add _ w _).trans (List.Perm.append_right _ ih)

theorem represents_all_held {α : Type} (fams : List (Family α)) (G : List (List Char × List α))
    (h : Represents fams G) :
    all_held fams = ((G.map fun g => g.2).flatten).map Slot.ptr ∧
      total_words fams = ((G.map fun g => g.2).flatten.length : Int) := by
  unfold Represents at h
  induction h with
  | nil => simp [all_held, total_words]
  | @cons f g l G0 hfg _ ih =>
    simp only [all_held, total_words, ih.1, ih.2, hfg.2.held_eq, hfg.2.1, List.map_cons,
      List.flatten_cons, List.map_append, List.length_append, Nat.cast_add, and_self]

theorem signature_index_unique {α : Type} (fams : List (Family α))
    (hnd : (fams.map fun f => f.signature).Nodup) (i j : Nat) (f g : Family α)
    (hi : fams[i]? = some f) (hj : fams[j]? = some g) (e : f.signature = g.signature) :
    i = j := by
  have key : ∀ a b : Nat, ∀ fa fb : Family α, a < b → fams[a]? = some fa → fams[b]? = some fb →
      fa.signature = fb.signature → False := by
    intro a b fa fb hab ha hb hs
    have hb2 : b < (fams.map fun f => f.signature).length := by
      rw [List.length_map]
      exact (List.getElem?_eq_some.1 hb).1
    have := List.nodup_iff_getElem?_ne_getElem?.1 hnd a b hab hb2
    apply this
    simp only [List.getElem?_map, ha, hb, Option.map_some', hs]
  rcases Nat.lt_trichotomy i j with h | h | h
  · exact (key i j f g h hi hj e).elim
  · exact h
  · exact (key j i g f h hj hi e.symm).elim

theorem holds_mem_held {α : Type} {f : Family α} {ws : List α} (h : Holds f ws) (w : α) :
    Slot.ptr w ∈ held f ↔ w ∈ ws := by
  rw [h.held_eq, List.mem_map]
  constructor
  · rintro ⟨v, hv, e⟩
    cases e
    exact hv
  · intro hw
    exact ⟨w, hw, rfl⟩

/-! ## Generation: the claims -/

/-- C1: for a NULL-terminated word list `ws`, any letter and a growth
increment of at least 1, `generate_families` returns the reference grouping:
the families are, in list order, the distinct signatures of the words in order
of first occurrence, and the first `num_words` cells of each family are the
words of `ws` with that family's signature, in source order. -/
theorem generate_families_refines_reference {α : Type} (deref : α → List Char) (k : Int)
    (hk : 1 ≤ k) (ws : List α) (rest : List (Option α)) (letter : Char) :
    ∃ fams, generate_families deref k (some (ws.map some ++ none :: rest)) letter = some fams ∧
      fams.map shown
        = (reference_grouping deref ws letter).map
            (fun g => (g.1, (g.2.length : Int), g.2.map Slot.ptr)) ∧
      fams.map (fun f => f.signature)
        = first_seen (ws.map fun w => signature_of (deref w) letter) ∧
      ∀ f ∈ fams,
        f.num_words = ((ws.filter fun w => signature_of (deref w) letter = f.signature).length : Int) ∧
        f.word_ptrs.take f.num_words.toNat
          = (ws.filter fun w => signature_of (deref w) letter = f.signature).map Slot.ptr := by
  obtain ⟨fams, h1, h2⟩ := generate_families_represents deref k hk ws rest letter
  obtain ⟨h3, h4⟩ := represents_map _ _ fams h2
  exact ⟨fams, h1, represents_shown fams _ h2, h3, fun f hf => ⟨(h4 f hf).1, (h4 f hf).held_eq⟩⟩

theorem generate_families_refines_reference_witness :
    (1 : Int) ≤ 2 ∧
    ∃ fams, generate_families String.data 2
        (some (["cat", "dog", "cot"].map some ++ none :: [some "bad"])) 'o' = some fams ∧
      fams.map shown
        = (reference_grouping String.data ["cat", "dog", "cot"] 'o').map
            (fun g => (g.1, (g.2.length : Int), g.2.map Slot.ptr)) ∧
      fams.map (fun f => f.signature)
        = first_seen (["cat", "dog", "cot"].map fun w => signature_of (String.data w) 'o') ∧
      ∀ f ∈ fams,
        f.num_words = ((["cat", "dog", "cot"].filter
          fun w => signature_of (String.data w) 'o' = f.signature).length : Int) ∧
        f.word_ptrs.take f.num_words.toNat
          = (["cat", "dog", "cot"].filter
              fun w => signature_of (String.data w) 'o' = f.signature).map Slot.ptr :=
  ⟨by decide,
    generate_families_refines_reference String.data 2 (by decide) ["cat", "dog", "cot"]
      [some "bad"] 'o'⟩

/-- C2: for a NULL-terminated word list `ws`, any letter and a growth
increment of at least 1, the held cells of the families of
`generate_families`, laid end to end, are a rearrangement of the cells of `ws`
(each word occurrence sits in exactly one held slot), each word of `ws` is held
by exactly one family, and the `num_words` of all families add up to the number
of words of `ws`. -/
theorem generate_families_partition {α : Type} (deref : α → List Char) (k : Int)
    (hk : 1 ≤ k) (ws : List α) (rest : List (Option α)) (letter : Char) :
    ∃ fams, generate_families deref k (some (ws.map some ++ none :: rest)) letter = some fams ∧
      (all_held fams).Perm (ws.map Slot.ptr) ∧
      (∀ w ∈ ws, ∃ (i : Nat) (f : Family α), fams[i]? = some f ∧ Slot.ptr w ∈ held f ∧
        ∀ (j : Nat) (g : Family α), fams[j]? = some g → Slot.ptr w ∈ held g → j = i) ∧
      total_words fams = (ws.length : Int) := by
  obtain ⟨fams, h1, h2⟩ := generate_families_represents deref k hk ws rest letter
  obtain ⟨h3, h4⟩ := represents_map _ _ fams h2
  obtain ⟨h5, h6⟩ := represents_all_held fams _ h2
  have hperm := reference_grouping_perm deref letter ws
  refine ⟨fams, h1, ?_, ?_, ?_⟩
  · rw [h5]
    exact hperm.map _
  · intro w hw
    have hmem : signature_of (deref w) letter ∈ fams.map fun f => f.signature := by
      rw [h3, mem_first_seen]
      exact List.mem_map.2 ⟨w, hw, rfl⟩
    obtain ⟨f, hf, hfs⟩ := List.mem_map.1 hmem
    obtain ⟨i, hi⟩ := List.mem_iff_getElem?.1 hf
    refine ⟨i, f, hi, ?_, ?_⟩
    · rw [holds_mem_held (h4 f hf), List.mem_filter]
      exact ⟨hw, by simpa using hfs.symm⟩
    · intro j g hj hg
      have hgm : g ∈ fams := List.mem_iff_getElem?.2 ⟨j, hj⟩
      rw [holds_mem_held (h4 g hgm), List.mem_filter] at hg
      have hgs : signature_of (deref w) letter = g.signature := by simpa using hg.2
      have hnd : (fams.map fun f => f.signature).Nodup := by
        rw [h3]; exact first_seen_nodup _
      exact signature_index_unique fams hnd j i g f hj hi (by rw [← hgs, hfs])
  · rw [h6, hperm.length_eq]

theorem generate_families_partition_witness :
    (1 : Int) ≤ 1 ∧
    ∃ fams, generate_families String.data 1
        (some (["cat", "dog", "cot"].map some ++ none :: [])) 'o' = some fams ∧
      (all_held fams).Perm (["cat", "dog", "cot"].map Slot.ptr) ∧
      (∀ w ∈ ["cat", "dog", "cot"], ∃ (i : Nat) (f : Family String), fams[i]? = some f ∧ Slot.ptr w ∈ held f ∧
        ∀ (j : Nat) (g : Family String), fams[j]? = some g → Slot.ptr w ∈ held g → j = i) ∧
      total_words fams = ((["cat", "dog", "cot"] : List String).length : Int) :=
  ⟨by decide,
    generate_families_partition String.data 1 (by decide) ["cat", "dog", "cot"] [] 'o'⟩

/-- C3 (as stated, refuted): with the placeholder `'_'` as the letter, the
signature of the word `"a"` holds the letter at position 0 although the word
does not. -/
theorem signature_of_placeholder_letter :
    ¬ ((signature_of "a".data '_')[0]? = some '_' ↔ ("a".data)[0]? = some '_') := by
  decide

/-- C3 (amended): the signature has the length of the word, each of its
characters is the letter or `'_'`, it holds the letter wherever the word does,
and when the letter is not `'_'` it holds the letter at position `i` exactly
when the word does; when the letter is `'_'` every position of the signature
holds it. -/
theorem signature_of_spec (word : List Char) (letter : Char) :
    (signature_of word letter).length = word.length ∧
    (∀ c ∈ signature_of word letter, c = letter ∨ c = '_') ∧
    (∀ i : Nat, word[i]? = some letter → (signature_of word letter)[i]? = some letter) ∧
    (letter ≠ '_' →
      ∀ i : Nat, (signature_of word letter)[i]? = some letter ↔ word[i]? = some letter) ∧
    (letter = '_' → ∀ i : Nat, i < word.length → (signature_of word letter)[i]? = some letter) := by
  refine ⟨by simp [signature_of], ?_, ?_, ?_, ?_⟩
  · intro c hc
    simp only [signature_of, List.mem_map] at hc
    obtain ⟨a, _, ha⟩ := hc
    by_cases h : a = letter
    · left; rw [← ha, if_pos h]
    · right; rw [← ha, if_neg h]
  · intro i hi
    simp [signature_of, hi]
  · intro hne i
    simp only [signature_of, List.getElem?_map]
    cases hw : word[i]? with
    | none => simp
    | some c =>
      by_cases h : c = letter
      · simp [h]
      · have h2 : ¬ '_' = letter := fun e => hne e.symm
        simp [h, h2]
  · intro he i hi
    simp only [signature_of, List.getElem?_map, List.getElem?_eq_getElem hi, Option.map_some',
      Option.some.injEq]
    split
    · rfl
    · exact he.symm

theorem signature_of_spec_witness :
    'd' ≠ '_' ∧
    (signature_of "dad".data 'd').length = "dad".data.length ∧
    (∀ c ∈ signature_of "dad".data 'd', c = 'd' ∨ c = '_') ∧
    (∀ i : Nat, ("dad".data)[i]? = some 'd' → (signature_of "dad".data 'd')[i]? = some 'd') ∧
    (∀ i : Nat, (signature_of "dad".data 'd')[i]? = some 'd' ↔ ("dad".data)[i]? = some 'd') :=
  ⟨by decide, (signature_of_spec "dad".data 'd').1, (signature_of_spec "dad".data 'd').2.1,
    (signature_of_spec "dad".data 'd').2.2.1,
    (signature_of_spec "dad".data 'd').2.2.2.1 (by decide)⟩

/-- C4: for a NULL-terminated word list, any letter and a growth increment of
at least 1, every word held in the first `num_words` cells of a family of
`generate_families` has, recomputed with the same letter, that family's
signature; so any two words of one family have equal signatures. -/
theorem generate_families_signature_invariant {α : Type} (deref : α → List Char) (k : Int)
    (hk : 1 ≤ k) (ws : List α) (rest : List (Option α)) (letter : Char) :
    ∃ fams, generate_families deref k (some (ws.map some ++ none :: rest)) letter = some fams ∧
      (∀ f ∈ fams, ∀ w : α, Slot.ptr w ∈ f.word_ptrs.take f.num_words.toNat →
        signature_of (deref w) letter = f.signature) ∧
      (∀ f ∈ fams, ∀ v w : α, Slot.ptr v ∈ f.word_ptrs.take f.num_words.toNat →
        Slot.ptr w ∈ f.word_ptrs.take f.num_words.toNat →
        signature_of (deref v) letter = signature_of (deref w) letter) := by
  obtain ⟨fams, h1, _, h3⟩ := generate_families_shape deref k hk ws rest letter
  have key : ∀ f ∈ fams, ∀ w : α, Slot.ptr w ∈ f.word_ptrs.take f.num_words.toNat →
      signature_of (deref w) letter = f.signature := by
    intro f hf w hw
    have := (holds_mem_held (h3 f hf) w).1 hw
    rw [List.mem_filter] at this
    simpa using this.2
  exact ⟨fams, h1, key, fun f hf v w hv hw => (key f hf v hv).trans (key f hf w hw).symm⟩

theorem generate_families_signature_invariant_witness :
    (1 : Int) ≤ 3 ∧
    ∃ fams, generate_families String.data 3
        (some (["cat", "dog"].map some ++ none :: [])) 'a' = some fams ∧
      (∀ f ∈ fams, ∀ w : String, Slot.ptr w ∈ f.word_ptrs.take f.num_words.toNat →
        signature_of (String.data w) 'a' = f.signature) ∧
      (∀ f ∈ fams, ∀ v w : String, Slot.ptr v ∈ f.word_ptrs.take f.num_words.toNat →
        Slot.ptr w ∈ f.word_ptrs.take f.num_words.toNat →
        signature_of (String.data v) 'a' = signature_of (String.data w) 'a') :=
  ⟨by decide,
    generate_families_signature_invariant String.data 3 (by decide) ["cat", "dog"] [] 'a'⟩

/-- C5: for a NULL-terminated word list, any letter and a growth increment of
at least 1, two families at different places of the list returned by
`generate_families` have different signatures, so words held by different
families have different signatures. -/
theorem generate_families_signatures_distinct {α : Type} (deref : α → List Char) (k : Int)
    (hk : 1 ≤ k) (ws : List α) (rest : List (Option α)) (letter : Char) :
    ∃ fams, generate_families deref k (some (ws.map some ++ none :: rest)) letter = some fams ∧
      (∀ (i j : Nat) (f g : Family α), i ≠ j → fams[i]? = some f → fams[j]? = some g →
        f.signature ≠ g.signature) ∧
      (∀ (i j : Nat) (f g : Family α) (v w : α), i ≠ j → fams[i]? = some f →
        fams[j]? = some g → Slot.ptr v ∈ f.word_ptrs.take f.num_words.toNat →
        Slot.ptr w ∈ g.word_ptrs.take g.num_words.toNat →
        signature_of (deref v) letter ≠ signature_of (deref w) letter) := by
  obtain ⟨fams, h1, h2, h3⟩ := generate_families_shape deref k hk ws rest letter
  have hnd : (fams.map fun f => f.signature).Nodup := by
    rw [h2]; exact first_seen_nodup _
  have key : ∀ f ∈ fams, ∀ w : α, Slot.ptr w ∈ f.word_ptrs.take f.num_words.toNat →
      signature_of (deref w) letter = f.signature := by
    intro f hf w hw
    have := (holds_mem_held (h3 f hf) w).1 hw
    rw [List.mem_filter] at this
    simpa using this.2
  refine ⟨fams, h1, ?_, ?_⟩
  · intro i j f g hij hi hj e
    exact hij (signature_index_unique fams hnd i j f g hi hj e)
  · intro i j f g v w hij hi hj hv hw e
    have hf : f ∈ fams := List.mem_iff_getElem?.2 ⟨i, hi⟩
    have hg : g ∈ fams := List.mem_iff_getElem?.2 ⟨j, hj⟩
    apply hij
    apply signature_index_unique fams hnd i j f g hi hj
    rw [← key f hf v hv, ← key g hg w hw, e]

theorem generate_families_signatures_distinct_witness :
    (1 : Int) ≤ 1 ∧
    ∃ fams, generate_families String.data 1
        (some (["cat", "dog", "bad"].map some ++ none :: [])) 'd' = some fams ∧
      (∀ (i j : Nat) (f g : Family String), i ≠ j → fams[i]? = some f → fams[j]? = some g →
        f.signature ≠ g.signature) ∧
      (∀ (i j : Nat) (f g : Family String) (v w : String), i ≠ j → fams[i]? = some f →
        fams[j]? = some g → Slot.ptr v ∈ f.word_ptrs.take f.num_words.toNat →
        Slot.ptr w ∈ g.word_ptrs.take g.num_words.toNat →
        signature_of (String.data v) 'd' ≠ signature_of (String.data w) 'd') :=
  ⟨by decide,
    generate_families_signatures_distinct String.data 1 (by decide) ["cat", "dog", "bad"] [] 'd'⟩

/-- C6: `find_family` on any family list returns NULL exactly when no family
has the signature `s`, and otherwise the first family in list order with
signature `s`.  On the list `generate_families` returns (growth increment at
least 1) it returns NULL exactly when no word of the list has signature `s`,
and otherwise the one family of the list whose signature is `s`. -/
theorem find_family_generate_families {α : Type} (deref : α → List Char) (k : Int)
    (hk : 1 ≤ k) (ws : List α) (rest : List (Option α)) (letter : Char) (s : List Char) :
    (∀ l : List (Family α),
      (find_family l s = none ↔ ∀ f ∈ l, f.signature ≠ s) ∧
      ∀ i : Nat, find_family l s = some i →
        (∃ f, l[i]? = some f ∧ f.signature = s) ∧
        ∀ (j : Nat) (f : Family α), j < i → l[j]? = some f → f.signature ≠ s) ∧
    ∃ fams, generate_families deref k (some (ws.map some ++ none :: rest)) letter = some fams ∧
      (find_family fams s = none ↔ ∀ w ∈ ws, signature_of (deref w) letter ≠ s) ∧
      ((∃ w ∈ ws, signature_of (deref w) letter = s) →
        ∃ (i : Nat) (f : Family α), find_family fams s = some i ∧ fams[i]? = some f ∧
          f.signature = s ∧
          ∀ (j : Nat) (g : Family α), fams[j]? = some g → g.signature = s → j = i) := by
  refine ⟨fun l => ⟨find_family_eq_none s l, fun i hi =>
    ⟨(find_family_eq_some s l i hi).1, fun j f hj hf => (find_family_eq_some s l i hi).2 j hj f hf⟩⟩,
    ?_⟩
  obtain ⟨fams, h1, h2, _⟩ := generate_families_shape deref k hk ws rest letter
  have hnd : (fams.map fun f => f.signature).Nodup := by
    rw [h2]; exact first_seen_nodup _
  have hiff : find_family fams s = none ↔ ∀ w ∈ ws, signature_of (deref w) letter ≠ s := by
    rw [find_family_eq_none]
    constructor
    · intro h w hw e
      have hmem : s ∈ fams.map fun f => f.signature := by
        rw [h2, mem_first_seen]
        exact List.mem_map.2 ⟨w, hw, e⟩
      obtain ⟨f, hf, hfs⟩ := List.mem_map.1 hmem
      exact h f hf hfs
    · intro h f hf e
      have hmem : s ∈ fams.map fun f => f.signature := List.mem_map.2 ⟨f, hf, e⟩
      rw [h2, mem_first_seen] at hmem
      obtain ⟨w, hw, hws⟩ := List.mem_map.1 hmem
      exact h w hw hws
  refine ⟨fams, h1, hiff, ?_⟩
  rintro ⟨w, hw, hws⟩
  cases hfind : find_family fams s with
  | none => exact absurd hws (hiff.1 hfind w hw)
  | some i =>
    obtain ⟨⟨f, hf, hfs⟩, _⟩ := find_family_eq_some s fams i hfind
    refine ⟨i, f, rfl, hf, hfs, ?_⟩
    intro j g hj hg
    exact signature_index_unique fams hnd j i g f hj hf (by rw [hg, hfs])

theorem find_family_generate_families_witness :
    (1 : Int) ≤ 1 ∧
    ((∀ l : List (Family String),
      (find_family l "___".data = none ↔ ∀ f ∈ l, f.signature ≠ "___".data) ∧
      ∀ i : Nat, find_family l "___".data = some i →
        (∃ f, l[i]? = some f ∧ f.signature = "___".data) ∧
        ∀ (j : Nat) (f : Family String), j < i → l[j]? = some f → f.signature ≠ "___".data) ∧
    ∃ fams, generate_families String.data 1
        (some (["cat", "dog", "bad"].map some ++ none :: [])) 'd' = some fams ∧
      (find_family fams "___".data = none ↔
        ∀ w ∈ ["cat", "dog", "bad"], signature_of (String.data w) 'd' ≠ "___".data) ∧
      ((∃ w ∈ ["cat", "dog", "bad"], signature_of (String.data w) 'd' = "___".data) →
        ∃ (i : Nat) (f : Family String), find_family fams "___".data = some i ∧
          fams[i]? = some f ∧ f.signature = "___".data ∧
          ∀ (j : Nat) (g : Family String), fams[j]? = some g → g.signature = "___".data → j = i)) :=
  ⟨by decide,
    find_family_generate_families String.data 1 (by decide) ["cat", "dog", "bad"] [] 'd'
      "___".data⟩

/-! ## The biggest family -/

theorem find_biggest_from_spec {α : Type} (rest : List (Family α)) :
    ∀ (done : List (Family α)) (m : Nat) (mf : Family α),
      (done ++ rest)[m]? = some mf →
      (∀ f ∈ done, f.num_words ≤ mf.num_words) →
      (∀ (j : Nat) (f : Family α), j < m → (done ++ rest)[j]? = some f →
        f.num_words < mf.num_words) →
      ∃ r, (done ++ rest)[find_biggest_from rest done.length m mf]? = some r ∧
        (∀ f ∈ done ++ rest, f.num_words ≤ r.num_words) ∧
        ∀ (j : Nat) (f : Family α), j < find_biggest_from rest done.length m mf →
          (done ++ rest)[j]? = some f → f.num_words < r.num_words := by
  induction rest with
  | nil =>
    intro done m mf hm hle hlt
    refine ⟨mf, by simpa [find_biggest_from] using hm, by simpa using hle, ?_⟩
    intro j f hj hf
    exact hlt j f (by simpa [find_biggest_from] using hj) hf
  | cons f rest ih =>
    intro done m mf hm hle hlt
    have e : done ++ f :: rest = (done ++ [f]) ++ rest := by simp
    have hlen : (done ++ [f]).length = done.length + 1 := by simp
    have hat : ((done ++ [f]) ++ rest)[done.length]? = some f := by
      rw [List.append_assoc, List.getElem?_append_right (Nat.le_refl _)]
      simp
    simp only [find_biggest_from]
    rw [e, ← hlen]
    rw [e] at hm hlt
    by_cases hgt : f.num_words > mf.num_words
    · rw [if_pos hgt]
      apply ih (done ++ [f]) done.length f hat
      · intro g hg
        rcases List.mem_append.1 hg with h | h
        · have := hle g h; omega
        · simp only [List.mem_singleton] at h
          rw [h]
      · intro j g hj hg
        have hjd : done[j]? = some g := by
          rw [List.append_assoc, List.getElem?_append_left hj] at hg
          exact hg
        have := hle g (List.mem_iff_getElem?.2 ⟨j, hjd⟩)
        omega
    · rw [if_neg hgt]
      apply ih (done ++ [f]) m mf hm
      · intro g hg
        rcases List.mem_append.1 hg with h | h
        · exact hle g h
        · simp only [List.mem_singleton] at h
          rw [h]; omega
      · exact hlt

theorem find_biggest_family_spec {α : Type} (f0 : Family α) (l : List (Family α)) :
    ∃ (i : Nat) (r : Family α), find_biggest_family (f0 :: l) = some i ∧
      (f0 :: l)[i]? = some r ∧ (∀ f ∈ f0 :: l, f.num_words ≤ r.num_words) ∧
      ∀ (j : Nat) (f : Family α), j < i → (f0 :: l)[j]? = some f →
        f.num_words < r.num_words := by
  obtain ⟨r, h1, h2, h3⟩ := find_biggest_from_spec (f0 :: l) [] 0 f0 (by simp)
    (by simp) (fun j f hj => absurd hj (Nat.not_lt_zero j))
  simp only [List.nil_append, List.length_nil] at h1 h2 h3
  exact ⟨_, r, rfl, h1, h2, h3⟩

/-- C7: `find_biggest_family` returns NULL on the empty list, and on a
non-empty list it returns a node of the list whose `num_words` is at least the
`num_words` of every family of the list. -/
theorem find_biggest_family_max {α : Type} :
    find_biggest_family ([] : List (Family α)) = none ∧
    ∀ l : List (Family α), l ≠ [] →
      ∃ (i : Nat) (r : Family α), find_biggest_family l = some i ∧ l[i]? = some r ∧ r ∈ l ∧
        ∀ f ∈ l, f.num_words ≤ r.num_words := by
  refine ⟨rfl, ?_⟩
  intro l hl
  cases l with
  | nil => exact absurd rfl hl
  | cons f0 t =>
    obtain ⟨i, r, h1, h2, h3, _⟩ := find_biggest_family_spec f0 t
    exact ⟨i, r, h1, h2, List.mem_iff_getElem?.2 ⟨i, h2⟩, h3⟩

theorem find_biggest_family_max_witness :
    find_biggest_family ([] : List (Family String)) = none ∧
    ([{ signature := "_a".data, word_ptrs := [Slot.ptr "ba", Slot.null],
        num_words := 1, max_words := 1 },
      { signature := "__".data, word_ptrs := [Slot.ptr "to", Slot.ptr "we", Slot.null],
        num_words := 2, max_words := 2 },
      { signature := "a_".data, word_ptrs := [Slot.ptr "at", Slot.null],
        num_words := 1, max_words := 1 }] : List (Family String)) ≠ [] ∧
    (∃ (i : Nat) (r : Family String),
      find_biggest_family
        ([{ signature := "_a".data, word_ptrs := [Slot.ptr "ba", Slot.null],
            num_words := 1, max_words := 1 },
          { signature := "__".data, word_ptrs := [Slot.ptr "to", Slot.ptr "we", Slot.null],
            num_words := 2, max_words := 2 },
          { signature := "a_".data, word_ptrs := [Slot.ptr "at", Slot.null],
            num_words := 1, max_words := 1 }] : List (Family String)) = some i ∧
      ([{ signature := "_a".data, word_ptrs := [Slot.ptr "ba", Slot.null],
          num_words := 1, max_words := 1 },
        { signature := "__".data, word_ptrs := [Slot.ptr "to", Slot.ptr "we", Slot.null],
          num_words := 2, max_words := 2 },
        { signature := "a_".data, word_ptrs := [Slot.ptr "at", Slot.null],
          num_words := 1, max_words := 1 }] : List (Family String))[i]? = some r ∧
      r ∈ ([{ signature := "_a".data, word_ptrs := [Slot.ptr "ba", Slot.null],
              num_words := 1, max_words := 1 },
            { signature := "__".data, word_ptrs := [Slot.ptr "to", Slot.ptr "we", Slot.null],
              num_words := 2, max_words := 2 },
            { signature := "a_".data, word_ptrs := [Slot.ptr "at", Slot.null],
              num_words := 1, max_words := 1 }] : List (Family String)) ∧
      ∀ f ∈ ([{ signature := "_a".data, word_ptrs := [Slot.ptr "ba", Slot.null],
                  num_words := 1, max_words := 1 },
                { signature := "__".data, word_ptrs := [Slot.ptr "to", Slot.ptr "we", Slot.null],
                  num_words := 2, max_words := 2 },
                { signature := "a_".data, word_ptrs := [Slot.ptr "at", Slot.null],
                  num_words := 1, max_words := 1 }] : List (Family String)),
        f.num_words ≤ r.num_words) ∧
    find_biggest_family
      ([{ signature := "_a".data, word_ptrs := [Slot.ptr "ba", Slot.null],
          num_words := 1, max_words := 1 },
        { signature := "__".data, word_ptrs := [Slot.ptr "to", Slot.ptr "we", Slot.null],
          num_words := 2, max_words := 2 },
        { signature := "a_".data, word_ptrs := [Slot.ptr "at", Slot.null],
          num_words := 1, max_words := 1 }] : List (Family String)) = some 1 :=
  ⟨find_biggest_family_max.1, by simp, find_biggest_family_max.2 _ (by simp), by decide⟩

theorem reference_grouping_cat_dog_bad :
    reference_grouping String.data ["cat", "dog", "bad"] 'd'
      = [("___".data, ["cat"]), ("d__".data, ["dog"]), ("__d".data, ["bad"])] := by
  decide

/-- C8: on a non-empty list `find_biggest_family` returns the first family, in
list order, among those with the largest `num_words`: every family before the
returned one has strictly fewer words and no family has more.  On the list
generated from `["cat", "dog", "bad"]` with the letter `'d'` (three families
of one word each) it returns the family with signature `"___"`. -/
theorem find_biggest_family_first_max :
    (∀ (α : Type) (l : List (Family α)), l ≠ [] →
      ∃ (i : Nat) (r : Family α), find_biggest_family l = some i ∧ l[i]? = some r ∧
        (∀ f ∈ l, f.num_words ≤ r.num_words) ∧
        ∀ (j : Nat) (f : Family α), j < i → l[j]? = some f → f.num_words < r.num_words) ∧
    (∀ (k : Int) (rest : List (Option String)), 1 ≤ k →
      ∃ (fams : List (Family String)) (i : Nat) (r : Family String),
        generate_families String.data k
          (some (["cat", "dog", "bad"].map some ++ none :: rest)) 'd' = some fams ∧
        fams.length = 3 ∧ (∀ f ∈ fams, f.num_words = 1) ∧
        find_biggest_family fams = some i ∧ fams[i]? = some r ∧
        r.signature = "___".data ∧ held r = [Slot.ptr "cat"]) := by
  constructor
  · intro α l hl
    cases l with
    | nil => exact absurd rfl hl
    | cons f0 t => exact find_biggest_family_spec f0 t
  · intro k rest hk
    obtain ⟨fams, h1, h2⟩ :=
      generate_families_represents String.data k hk ["cat", "dog", "bad"] rest 'd'
    have h3 := represents_shown fams _ h2
    rw [reference_grouping_cat_dog_bad] at h3
    rcases fams with _ | ⟨a, _ | ⟨b, _ | ⟨c, _ | ⟨d, t⟩⟩⟩⟩ <;>
      simp only [List.map_cons, List.map_nil, List.cons.injEq, and_true, reduceCtorEq,
        and_false] at h3
    obtain ⟨ha, hb, hc⟩ := h3
    simp only [shown, Prod.mk.injEq] at ha hb hc
    refine ⟨[a, b, c], 0, a, h1, rfl, ?_, ?_, rfl, ha.1, ?_⟩
    · intro f hf
      simp only [List.mem_cons, List.mem_singleton, List.not_mem_nil, or_false] at hf
      rcases hf with e | e | e
      · rw [e, ha.2.1]; rfl
      · rw [e, hb.2.1]; rfl
      · rw [e, hc.2.1]; rfl
    · simp [find_biggest_family, find_biggest_from, ha.2.1, hb.2.1, hc.2.1]
    · rw [ha.2.2]

theorem find_biggest_family_first_max_witness :
    (([{ signature := "_a".data, word_ptrs := [Slot.ptr "ba", Slot.null], num_words := 1,
         max_words := 1 }] : List (Family String)) ≠ [] ∧
      ∃ (i : Nat) (r : Family String),
        find_biggest_family
          [{ signature := "_a".data, word_ptrs := [Slot.ptr "ba", Slot.null], num_words := 1,
             max_words := 1 }] = some i ∧
        ([{ signature := "_a".data, word_ptrs := [Slot.ptr "ba", Slot.null], num_words := 1,
            max_words := 1 }] : List (Family String))[i]? = some r ∧
        (∀ f ∈ ([{ signature := "_a".data, word_ptrs := [Slot.ptr "ba", Slot.null],
                   num_words := 1, max_words := 1 }] : List (Family String)),
          f.num_words ≤ r.num_words) ∧
        ∀ (j : Nat) (f : Family String), j < i →
          ([{ signature := "_a".data, word_ptrs := [Slot.ptr "ba", Slot.null],
              num_words := 1, max_words := 1 }] : List (Family String))[j]? = some f →
          f.num_words < r.num_words) ∧
    ((1 : Int) ≤ 1 ∧
      ∃ (fams : List (Family String)) (i : Nat) (r : Family String),
        generate_families String.data 1
          (some (["cat", "dog", "bad"].map some ++ none :: [])) 'd' = some fams ∧
        fams.length = 3 ∧ (∀ f ∈ fams, f.num_words = 1) ∧
        find_biggest_family fams = some i ∧ fams[i]? = some r ∧
        r.signature = "___".data ∧ held r = [Slot.ptr "cat"]) :=
  ⟨⟨by simp, find_biggest_family_first_max.1 String _ (by simp)⟩,
    ⟨by decide, find_biggest_family_first_max.2 1 [] (by decide)⟩⟩

/-! ## Sequences of appends -/

theorem append_all_holds {α : Type} (k : Int) (hk : 1 ≤ k) (ws : List α) :
    ∀ (f : Family α) (pre : List α), Holds f pre →
      ∃ g, append_all k (some f) ws = some (some g) ∧ g.signature = f.signature ∧
        Holds g (pre ++ ws) := by
  induction ws with
  | nil =>
    intro f pre h
    exact ⟨f, rfl, rfl, by simpa using h⟩
  | cons w ws ih =>
    intro f pre h
    obtain ⟨g, hg1, hg2, hg3⟩ := add_word_holds k hk f pre w h
    obtain ⟨g2, h1, h2, h3⟩ := ih g (pre ++ [w]) hg3
    refine ⟨g2, ?_, by rw [h2, hg2], by simpa using h3⟩
    simp only [append_all, add_word_to_family, hg1, Option.map_some', Option.some_bind]
    exact h1

/-- C9: for a growth increment `k` of at least 1 and any words `w1..wn`,
appending them in order with `add_word_to_family` to a family made by
`new_family` succeeds and leaves `num_words = n` with the first `n` cells of
`word_ptrs` equal to `w1..wn` in that order; one more append leaves those `n`
cells as they were and puts the new word right after them. -/
theorem append_all_keeps_order {α : Type} (k : Int) (hk : 1 ≤ k) (sig : List Char)
    (ws : List α) :
    ∃ f0 f : Family α, new_family k sig = some f0 ∧
      append_all k (some f0) ws = some (some f) ∧
      f.num_words = (ws.length : Int) ∧
      f.word_ptrs.take ws.length = ws.map Slot.ptr ∧
      ∀ w : α, ∃ g : Family α, add_word_to_family k (some f) w = some (some g) ∧
        g.num_words = (ws.length : Int) + 1 ∧
        g.word_ptrs.take ws.length = f.word_ptrs.take ws.length ∧
        g.word_ptrs[ws.length]? = some (Slot.ptr w) := by
  obtain ⟨f0, h0, _, hh0⟩ := new_family_holds (α := α) k (by omega) sig
  obtain ⟨f, h1, _, h2⟩ := append_all_holds k hk ws f0 [] hh0
  simp only [List.nil_append] at h2
  have htake : ∀ (g : Family α) (l t : List α), Holds g (l ++ t) →
      g.word_ptrs.take l.length = l.map Slot.ptr := by
    intro g l t hg
    rw [hg.2.2, List.map_append, List.append_assoc]
    have : l.length = (l.map (Slot.ptr : α → Slot α)).length := by simp
    rw [this, List.take_left']
    rfl
  refine ⟨f0, f, h0, h1, h2.1, ?_, ?_⟩
  · have := htake f ws [] (by simpa using h2)
    exact this
  · intro w
    obtain ⟨g, hg1, _, hg3⟩ := add_word_holds k hk f ws w h2
    refine ⟨g, ?_, ?_, ?_, ?_⟩
    · simp only [add_word_to_family, hg1, Option.map_some']
    · rw [hg3.1]; simp
    · rw [htake g ws [w] hg3, htake f ws [] (by simpa using h2)]
    · rw [hg3.2.2, List.map_append, List.append_assoc]
      have : ws.length = (ws.map (Slot.ptr : α → Slot α)).length := by simp
      rw [List.getElem?_append_right (by rw [← this])]
      simp

theorem append_all_keeps_order_witness :
    (1 : Int) ≤ 1 ∧
    ∃ f0 f : Family String, new_family 1 "_a_".data = some f0 ∧
      append_all 1 (some f0) ["cat", "bat", "rat"] = some (some f) ∧
      f.num_words = ((["cat", "bat", "rat"] : List String).length : Int) ∧
      f.word_ptrs.take (["cat", "bat", "rat"] : List String).length
        = (["cat", "bat", "rat"] : List String).map Slot.ptr ∧
      ∀ w : String, ∃ g : Family String, add_word_to_family 1 (some f) w = some (some g) ∧
        g.num_words = ((["cat", "bat", "rat"] : List String).length : Int) + 1 ∧
        g.word_ptrs.take (["cat", "bat", "rat"] : List String).length
          = f.word_ptrs.take (["cat", "bat", "rat"] : List String).length ∧
        g.word_ptrs[(["cat", "bat", "rat"] : List String).length]? = some (Slot.ptr w) :=
  ⟨by decide, append_all_keeps_order 1 (by decide) "_a_".data ["cat", "bat", "rat"]⟩

/-- C10 (as stated, refuted): with the growth increment 0, the value
`family_increment` holds before `init_family`, one append to a new family
leaves `num_words = 1` above `max_words = 0`, and the next append stores
outside the block. -/
theorem capacity_below_count_at_zero :
    ∃ f0 f : Family String, new_family 0 "_a_".data = some f0 ∧
      append_all 0 (some f0) ["cat"] = some (some f) ∧
      ¬ (f.num_words ≤ f.max_words) ∧
      append_all 0 (some f0) ["cat", "bat"] = none :=
  ⟨{ signature := "_a_".data, word_ptrs := [Slot.null], num_words := 0, max_words := 0 },
    { signature := "_a_".data, word_ptrs := [Slot.ptr "cat"], num_words := 1, max_words := 0 },
    by decide, by decide, by decide, by decide⟩

/-- C10 (amended): for every growth increment `k >= 0` a family made by
`new_family` has `num_words <= max_words`, and for every `k >= 1` every
sequence of `add_word_to_family` calls on it succeeds and leaves
`num_words <= max_words`. -/
theorem capacity_at_least_count {α : Type} (k : Int) (sig : List Char) :
    (0 ≤ k → ∃ f0 : Family α, new_family k sig = some f0 ∧ f0.num_words ≤ f0.max_words) ∧
    (1 ≤ k → ∀ ws : List α, ∃ f0 f : Family α, new_family k sig = some f0 ∧
      append_all k (some f0) ws = some (some f) ∧ f.num_words ≤ f.max_words) := by
  constructor
  · intro hk
    obtain ⟨f0, h0, _, hh0⟩ := new_family_holds (α := α) k hk sig
    exact ⟨f0, h0, hh0.2.1⟩
  · intro hk ws
    obtain ⟨f0, h0, _, hh0⟩ := new_family_holds (α := α) k (by omega) sig
    obtain ⟨f, h1, _, h2⟩ := append_all_holds k hk ws f0 [] hh0
    exact ⟨f0, f, h0, h1, h2.2.1⟩

theorem capacity_at_least_count_witness :
    ((0 : Int) ≤ 0 ∧
      ∃ f0 : Family String, new_family 0 "_a_".data = some f0 ∧ f0.num_words ≤ f0.max_words) ∧
    ((1 : Int) ≤ 2 ∧
      ∃ f0 f : Family String, new_family 2 "_a_".data = some f0 ∧
        append_all 2 (some f0) ["cat", "bat", "rat"] = some (some f) ∧
        f.num_words ≤ f.max_words) :=
  ⟨⟨by decide, (capacity_at_least_count 0 "_a_".data).1 (by decide)⟩,
    ⟨by decide, (capacity_at_least_count 2 "_a_".data).2 (by decide) ["cat", "bat", "rat"]⟩⟩

/-! ## One append: count and capacity -/

theorem load_append {α : Type} (a : List (Slot α)) (v : Slot α) (t : List (Slot α)) :
    load (a ++ v :: t) (a.length : Int) = some v := by
  unfold load
  have h : (0 : Int) ≤ a.length ∧ (a.length : Int) < ((a ++ v :: t).length : Int) := by
    constructor
    · omega
    · simp only [List.length_append, List.length_cons]; omega
  rw [if_pos h, Int.toNat_ofNat, List.getElem?_append_right (Nat.le_refl _)]
  simp

theorem copy_loop_append {α : Type} (s2 : List (Slot α)) :
    ∀ (s1 s3 a b c : List (Slot α)), a.length = s1.length → b.length = s2.length →
      copy_loop (s1 ++ s2 ++ s3) (a ++ b ++ c) (a.length : Int) s2.length
        = some (a ++ s2 ++ c) := by
  induction s2 with
  | nil =>
    intro s1 s3 a b c _ hb
    have : b = [] := List.length_eq_zero.1 hb
    simp [copy_loop, this]
  | cons v s2 ih =>
    intro s1 s3 a b c ha hb
    cases b with
    | nil => simp at hb
    | cons x b =>
      have hl : load (s1 ++ v :: s2 ++ s3) (a.length : Int) = some v := by
        have := load_append s1 v (s2 ++ s3)
        rw [ha]
        simpa using this
      have hs : store (a ++ x :: b ++ c) (a.length : Int) v = some (a ++ v :: (b ++ c)) := by
        have := store_append a x v (b ++ c)
        simpa using this
      have ih1 := ih (s1 ++ [v]) s3 (a ++ [v]) b c (by simp [ha]) (by simpa using hb)
      simp only [List.length_cons, copy_loop, hl, hs, Option.some_bind]
      have e1 : a ++ v :: (b ++ c) = a ++ [v] ++ b ++ c := by simp
      have e2 : ((a.length : Int) + 1) = ((a ++ [v]).length : Int) := by simp
      have e3 : s1 ++ v :: s2 ++ s3 = s1 ++ [v] ++ s2 ++ s3 := by simp
      rw [e1, e2, e3, ih1]
      simp

theorem get_new_word_list_eq {α : Type} (f : Family α) (hf : WellFormed f) :
    get_new_word_list (some f)
      = some (some f, some (f.word_ptrs.take f.num_words.toNat ++ [Slot.null])) := by
  obtain ⟨h0, h1, h2⟩ := hf
  have hn : (f.num_words + 1).toNat = f.num_words.toNat + 1 := by omega
  have hst : store (malloc_ptrs (f.num_words + 1) : List (Slot α)) f.num_words Slot.null
      = some (List.replicate f.num_words.toNat Slot.junk ++ [Slot.null]) := by
    have := store_append (List.replicate f.num_words.toNat (Slot.junk : Slot α)) Slot.junk
      Slot.null []
    simp only [List.length_replicate] at this
    have e : ((f.num_words.toNat : Nat) : Int) = f.num_words := by omega
    rw [e] at this
    unfold malloc_ptrs
    rw [hn, List.replicate_succ', this]
  have hlen : f.num_words.toNat ≤ f.word_ptrs.length := by omega
  have hcopy := copy_loop_append (f.word_ptrs.take f.num_words.toNat) []
    (f.word_ptrs.drop f.num_words.toNat) [] (List.replicate f.num_words.toNat Slot.junk)
    [Slot.null] rfl (by simp [hlen])
  simp only [List.nil_append, List.take_append_drop, List.length_nil, Nat.cast_zero,
    List.length_take, Nat.min_eq_left hlen] at hcopy
  simp only [get_new_word_list, hst, Option.some_bind, hcopy, Option.map_some']

/-- C12: for a non-NULL family with `0 <= num_words = n <= max_words` and a
block of `max_words + 1` cells, `get_new_word_list` returns a new block of
exactly `n + 1` cells whose first `n` cells are the family's first `n` cells
in the same order and whose cell `n` is NULL, and the family is as it was; for
a NULL family it returns NULL. -/
theorem get_new_word_list_copy {α : Type} (f : Family α) (hf : WellFormed f) :
    (∃ q : List (Slot α), get_new_word_list (some f) = some (some f, some q) ∧
      (q.length : Int) = f.num_words + 1 ∧
      q.take f.num_words.toNat = f.word_ptrs.take f.num_words.toNat ∧
      q[f.num_words.toNat]? = some Slot.null) ∧
    get_new_word_list (none : Option (Family α)) = some (none, none) := by
  have hlen : f.num_words.toNat ≤ f.word_ptrs.length := by
    have := hf.1; have := hf.2.1; have := hf.2.2; omega
  have hl : (f.word_ptrs.take f.num_words.toNat).length = f.num_words.toNat := by
    simp [hlen]
  refine ⟨⟨_, get_new_word_list_eq f hf, ?_, ?_, ?_⟩, rfl⟩
  · simp only [List.length_append, hl, List.length_singleton, Nat.cast_add, Nat.cast_one]
    have := hf.1
    omega
  · exact List.take_left' hl
  · rw [List.getElem?_append_right (by rw [hl]), hl]
    simp

theorem get_new_word_list_copy_witness :
    WellFormed ({ signature := "_a".data,
                  word_ptrs := [Slot.ptr "ba", Slot.ptr "ca", Slot.null, Slot.null],
                  num_words := 2, max_words := 3 } : Family String) ∧
    (∃ q : List (Slot String),
      get_new_word_list
        (some ({ signature := "_a".data,
                 word_ptrs := [Slot.ptr "ba", Slot.ptr "ca", Slot.null, Slot.null],
                 num_words := 2, max_words := 3 } : Family String))
        = some (some { signature := "_a".data,
                       word_ptrs := [Slot.ptr "ba", Slot.ptr "ca", Slot.null, Slot.null],
                       num_words := 2, max_words := 3 }, some q) ∧
      (q.length : Int) = 2 + 1 ∧
      q.take (2 : Int).toNat
        = ([Slot.ptr "ba", Slot.ptr "ca", Slot.null, Slot.null] : List (Slot String)).take
            (2 : Int).toNat ∧
      q[(2 : Int).toNat]? = some Slot.null) ∧
    get_new_word_list (none : Option (Family String)) = some (none, none) :=
  ⟨⟨by decide, by decide, by decide⟩,
    get_new_word_list_copy
      ({ signature := "_a".data,
         word_ptrs := [Slot.ptr "ba", Slot.ptr "ca", Slot.null, Slot.null],
         num_words := 2, max_words := 3 } : Family String)
      ⟨by decide, by decide, by decide⟩⟩

/-- C13: for every letter and growth increment, `generate_families` returns
the empty list (a NULL head) when `word_list` is NULL and when its first cell
is NULL; in the second case the loop ends with no family made
(`size_fam_list` still 0). -/
theorem generate_families_empty {α : Type} (deref : α → List Char) (k : Int)
    (rest : List (Option α)) (letter : Char) :
    generate_families deref k none letter = some [] ∧
    generate_families deref k (some (none :: rest)) letter = some [] ∧
    generate_loop deref k letter (none :: rest)
        { fam_list := [], end_ := none, size_fam_list := 0 }
      = some { fam_list := [], end_ := none, size_fam_list := 0 } :=
  ⟨rfl, rfl, rfl⟩

theorem load_nat {α : Type} (p : List (Slot α)) (i : Nat) (h : i < p.length) :
    load p (i : Int) = p[i]? := by
  unfold load
  have hin : (0 : Int) ≤ (i : Int) ∧ (i : Int) < (p.length : Int) := by omega
  rw [if_pos hin, Int.toNat_ofNat]

theorem get_random_word_at {α : Type} (f : Family α) (hf : WellFormed f)
    (hpos : 0 < f.num_words) (r : Int) (hr : 0 ≤ r) :
    get_random_word_from_family (some f) r = f.word_ptrs[(r % f.num_words).toNat]? ∧
      (r % f.num_words).toNat < f.num_words.toNat := by
  have hne : f.num_words ≠ 0 := by omega
  have hmod : Int.tmod r f.num_words = r % f.num_words :=
    Int.tmod_eq_emod hr (by omega)
  have h1 : 0 ≤ r % f.num_words := Int.emod_nonneg r hne
  have h2 : r % f.num_words < f.num_words := Int.emod_lt_of_pos r hpos
  have hlt : (r % f.num_words).toNat < f.word_ptrs.length := by
    have := hf.2.1; have := hf.2.2; omega
  have hcast : (((r % f.num_words).toNat : Nat) : Int) = r % f.num_words := by omega
  refine ⟨?_, by omega⟩
  simp only [get_random_word_from_family, if_neg hne, hmod]
  rw [← hcast, load_nat _ _ hlt, hcast]

/-- C14: for a family with `0 < num_words <= max_words` (and a block of
`max_words + 1` cells) and a non-negative `r` from the random source,
`get_random_word_from_family` returns the cell `word_ptrs[r mod num_words]`,
whose index is below `num_words`, so the result is one of the held cells; in
a family that holds the words `ws` it is a reference to one of them, never an
empty cell; and every held cell is returned for some `r`. -/
theorem get_random_word_from_family_held {α : Type} (f : Family α) (hf : WellFormed f)
    (hpos : 0 < f.num_words) :
    (∀ r : Int, 0 ≤ r →
      ∃ (i : Nat) (c : Slot α), (i : Int) = r % f.num_words ∧ i < f.num_words.toNat ∧
        f.word_ptrs[i]? = some c ∧ get_random_word_from_family (some f) r = some c ∧
        c ∈ held f) ∧
    (∀ ws : List α, Holds f ws → ∀ r : Int, 0 ≤ r →
      ∃ w ∈ ws, get_random_word_from_family (some f) r = some (Slot.ptr w)) ∧
    (∀ i : Nat, i < f.num_words.toNat →
      ∃ r : Int, 0 ≤ r ∧ get_random_word_from_family (some f) r = f.word_ptrs[i]?) := by
  have hlen : f.num_words.toNat ≤ f.word_ptrs.length := by
    have := hf.2.1; have := hf.2.2; omega
  have first : ∀ r : Int, 0 ≤ r →
      ∃ (i : Nat) (c : Slot α), (i : Int) = r % f.num_words ∧ i < f.num_words.toNat ∧
        f.word_ptrs[i]? = some c ∧ get_random_word_from_family (some f) r = some c ∧
        c ∈ held f := by
    intro r hr
    obtain ⟨h1, h2⟩ := get_random_word_at f hf hpos r hr
    have hlt : (r % f.num_words).toNat < f.word_ptrs.length := by omega
    have hc : f.word_ptrs[(r % f.num_words).toNat]?
        = some (f.word_ptrs[(r % f.num_words).toNat]) := List.getElem?_eq_getElem hlt
    refine ⟨(r % f.num_words).toNat, f.word_ptrs[(r % f.num_words).toNat], ?_, h2, hc, ?_, ?_⟩
    · have := Int.emod_nonneg r (b := f.num_words) (by omega)
      omega
    · rw [h1, hc]
    · unfold held
      rw [List.mem_iff_getElem?]
      exact ⟨(r % f.num_words).toNat, by rw [List.getElem?_take_of_lt h2, hc]⟩
  refine ⟨first, ?_, ?_⟩
  · intro ws hws r hr
    obtain ⟨i, c, _, _, _, hget, hmem⟩ := first r hr
    rw [hws.held_eq, List.mem_map] at hmem
    obtain ⟨w, hw, e⟩ := hmem
    exact ⟨w, hw, by rw [hget, e]⟩
  · intro i hi
    have hmod : (i : Int) % f.num_words = (i : Int) := Int.emod_eq_of_lt (by omega) (by omega)
    obtain ⟨h1, _⟩ := get_random_word_at f hf hpos (i : Int) (by omega)
    refine ⟨(i : Int), by omega, ?_⟩
    rw [h1, hmod, Int.toNat_ofNat]

theorem get_random_word_from_family_held_witness :
    WellFormed ({ signature := "_a".data,
                  word_ptrs := [Slot.ptr "ba", Slot.ptr "ca", Slot.null, Slot.null],
                  num_words := 2, max_words := 3 } : Family String) ∧
    (0 : Int) < 2 ∧ (0 : Int) ≤ 7 ∧
    ∃ (i : Nat) (c : Slot String), (i : Int) = 7 % 2 ∧ i < (2 : Int).toNat ∧
      ([Slot.ptr "ba", Slot.ptr "ca", Slot.null, Slot.null] : List (Slot String))[i]? = some c ∧
      get_random_word_from_family
        (some ({ signature := "_a".data,
                 word_ptrs := [Slot.ptr "ba", Slot.ptr "ca", Slot.null, Slot.null],
                 num_words := 2, max_words := 3 } : Family String)) 7 = some c ∧
      c ∈ held ({ signature := "_a".data,
                  word_ptrs := [Slot.ptr "ba", Slot.ptr "ca", Slot.null, Slot.null],
                  num_words := 2, max_words := 3 } : Family String) :=
  ⟨⟨by decide, by decide, by decide⟩, by decide, by decide,
    (get_random_word_from_family_held
      ({ signature := "_a".data,
         word_ptrs := [Slot.ptr "ba", Slot.ptr "ca", Slot.null, Slot.null],
         num_words := 2, max_words := 3 } : Family String)
      ⟨by decide, by decide, by decide⟩ (by decide)).1 7 (by decide)⟩

/-! ## Signatures of two words -/

theorem signature_of_getElem? (word : List Char) (letter : Char) (i : Nat) :
    (signature_of word letter)[i]? = (word[i]?).map fun c => if c = letter then letter else '_' := by
  simp [signature_of]

theorem signature_of_getElem?_eq_letter (word : List Char) (letter : Char) (hne : letter ≠ '_')
    (i : Nat) : (signature_of word letter)[i]? = some letter ↔ word[i]? = some letter := by
  rw [signature_of_getElem?]
  cases word[i]? with
  | none => simp
  | some c =>
    by_cases h : c = letter
    · simp [h]
    · have h2 : ¬ '_' = letter := fun e => hne e.symm
      simp [h, h2]

/-- C15: for a letter other than `'_'`, two words have equal signatures
exactly when they have the same length and hold the letter at the same
positions; equal signatures do not make the words equal (`"cat"` and `"bar"`
with the letter `'a'`). -/
theorem signature_of_eq_iff (letter : Char) (hne : letter ≠ '_') (w1 w2 : List Char) :
    (signature_of w1 letter = signature_of w2 letter ↔
      w1.length = w2.length ∧ ∀ i : Nat, (w1[i]? = some letter ↔ w2[i]? = some letter)) ∧
    (signature_of "cat".data 'a' = signature_of "bar".data 'a' ∧ "cat".data ≠ "bar".data) := by
  refine ⟨⟨?_, ?_⟩, by decide⟩
  · intro h
    refine ⟨?_, ?_⟩
    · have := congrArg List.length h
      simpa [signature_of] using this
    · intro i
      rw [← signature_of_getElem?_eq_letter w1 letter hne i,
        ← signature_of_getElem?_eq_letter w2 letter hne i, h]
  · rintro ⟨hlen, hpos⟩
    apply List.ext_getElem?
    intro i
    rw [signature_of_getElem?, signature_of_getElem?]
    by_cases hi : i < w1.length
    · have hi2 : i < w2.length := by omega
      have h1 := hpos i
      rw [List.getElem?_eq_getElem hi, List.getElem?_eq_getElem hi2] at h1 ⊢
      simp only [Option.some.injEq] at h1
      simp only [Option.map_some', Option.some.injEq]
      by_cases hc : w1[i] = letter
      · rw [if_pos hc, if_pos (h1.1 hc)]
      · rw [if_neg hc, if_neg (fun e => hc (h1.2 e))]
    · have hi2 : ¬ i < w2.length := by omega
      rw [List.getElem?_eq_none (by omega), List.getElem?_eq_none (by omega)]

theorem signature_of_eq_iff_witness :
    'a' ≠ '_' ∧
    ((signature_of "cat".data 'a' = signature_of "bar".data 'a' ↔
      "cat".data.length = "bar".data.length ∧
        ∀ i : Nat, (("cat".data)[i]? = some 'a' ↔ ("bar".data)[i]? = some 'a')) ∧
    (signature_of "cat".data 'a' = signature_of "bar".data 'a' ∧ "cat".data ≠ "bar".data)) :=
  ⟨by decide, signature_of_eq_iff 'a' (by decide) "cat".data "bar".data⟩

/-! ## The two examples of the specification -/

theorem reference_grouping_cat_car_bat_bar :
    reference_grouping String.data ["cat", "car", "bat", "bar"] 'a'
      = [("_a_".data, ["cat", "car", "bat", "bar"])] := by
  decide

/-- C16: with a growth increment of at least 1, `generate_families` on
`["cat", "car", "bat", "bar"]` with the letter `'a'` returns exactly one
family, with signature `"_a_"` and `num_words` 4, that holds cat, car, bat and
bar in this order. -/
theorem generate_families_cat_car_bat_bar (k : Int) (hk : 1 ≤ k)
    (rest : List (Option String)) :
    ∃ f : Family String,
      generate_families String.data k
        (some (["cat", "car", "bat", "bar"].map some ++ none :: rest)) 'a' = some [f] ∧
      f.signature = "_a_".data ∧ f.num_words = 4 ∧
      f.word_ptrs.take 4 = [Slot.ptr "cat", Slot.ptr "car", Slot.ptr "bat", Slot.ptr "bar"] := by
  obtain ⟨fams, h1, h2⟩ :=
    generate_families_represents String.data k hk ["cat", "car", "bat", "bar"] rest 'a'
  have h3 := represents_shown fams _ h2
  rw [reference_grouping_cat_car_bat_bar] at h3
  rcases fams with _ | ⟨a, _ | ⟨b, t⟩⟩ <;>
    simp only [List.map_cons, List.map_nil, List.cons.injEq, and_true, reduceCtorEq,
      and_false] at h3
  simp only [shown, Prod.mk.injEq] at h3
  obtain ⟨ha1, ha2, ha3⟩ := h3
  refine ⟨a, h1, ha1, ?_, ?_⟩
  · rw [ha2]; rfl
  · have : a.num_words.toNat = 4 := by rw [ha2]; rfl
    unfold held at ha3
    rw [this] at ha3
    exact ha3

theorem generate_families_cat_car_bat_bar_witness :
    (1 : Int) ≤ 2 ∧
    ∃ f : Family String,
      generate_families String.data 2
        (some (["cat", "car", "bat", "bar"].map some ++ none :: [])) 'a' = some [f] ∧
      f.signature = "_a_".data ∧ f.num_words = 4 ∧
      f.word_ptrs.take 4 = [Slot.ptr "cat", Slot.ptr "car", Slot.ptr "bat", Slot.ptr "bar"] :=
  ⟨by decide, generate_families_cat_car_bat_bar 2 (by decide) []⟩

/-- C17 (as stated, refuted): with the growth increment 1 the signatures of
the families generated from `["cat", "dog", "bad"]` with the letter `'d'` are
not `"___"`, `"d__"`, `"_d_"`: the word bad has its d at the last position. -/
theorem generate_families_cat_dog_bad_not_middle :
    ¬ ∃ fams : List (Family String),
      generate_families String.data 1
        (some (["cat", "dog", "bad"].map some ++ none :: [])) 'd' = some fams ∧
      fams.map (fun f => f.signature) = ["___".data, "d__".data, "_d_".data] := by
  rintro ⟨fams, h1, h2⟩
  have hgen : generate_families String.data 1
      (some (["cat", "dog", "bad"].map some ++ none :: [])) 'd'
      = some [{ signature := "___".data, word_ptrs := [Slot.ptr "cat", Slot.null],
                num_words := 1, max_words := 1 },
              { signature := "d__".data, word_ptrs := [Slot.ptr "dog", Slot.null],
                num_words := 1, max_words := 1 },
              { signature := "__d".data, word_ptrs := [Slot.ptr "bad", Slot.null],
                num_words := 1, max_words := 1 }] := by
    decide
  rw [hgen] at h1
  cases h1
  revert h2
  decide

/-- C17 (amended): with a growth increment of at least 1, `generate_families`
on `["cat", "dog", "bad"]` with the letter `'d'` returns exactly three
families, in order with signatures `"___"`, `"d__"`, `"__d"`, each with
`num_words` 1 and holding cat, dog and bad respectively, and `find_family` on
that list with the signature `"___"` returns the first family, which holds
cat. -/
theorem generate_families_cat_dog_bad (k : Int) (hk : 1 ≤ k) (rest : List (Option String)) :
    ∃ a b c : Family String,
      generate_families String.data k
        (some (["cat", "dog", "bad"].map some ++ none :: rest)) 'd' = some [a, b, c] ∧
      a.signature = "___".data ∧ b.signature = "d__".data ∧ c.signature = "__d".data ∧
      a.num_words = 1 ∧ b.num_words = 1 ∧ c.num_words = 1 ∧
      a.word_ptrs.take 1 = [Slot.ptr "cat"] ∧ b.word_ptrs.take 1 = [Slot.ptr "dog"] ∧
      c.word_ptrs.take 1 = [Slot.ptr "bad"] ∧
      find_family [a, b, c] "___".data = some 0 := by
  obtain ⟨fams, h1, h2⟩ :=
    generate_families_represents String.data k hk ["cat", "dog", "bad"] rest 'd'
  have h3 := represents_shown fams _ h2
  rw [reference_grouping_cat_dog_bad] at h3
  rcases fams with _ | ⟨a, _ | ⟨b, _ | ⟨c, _ | ⟨d, t⟩⟩⟩⟩ <;>
    simp only [List.map_cons, List.map_nil, List.cons.injEq, and_true, reduceCtorEq,
      and_false] at h3
  obtain ⟨ha, hb, hc⟩ := h3
  simp only [shown, Prod.mk.injEq] at ha hb hc
  have one : ∀ (f : Family String) (w : String), f.num_words = ((([w] : List String).length : Nat) : Int) →
      held f = [w].map Slot.ptr → f.num_words = 1 ∧ f.word_ptrs.take 1 = [Slot.ptr w] := by
    intro f w hn hh
    have e : f.num_words = 1 := by rw [hn]; rfl
    have e2 : f.num_words.toNat = 1 := by rw [e]; rfl
    unfold held at hh
    rw [e2] at hh
    exact ⟨e, hh⟩
  refine ⟨a, b, c, h1, ha.1, hb.1, hc.1, (one a _ ha.2.1 ha.2.2).1, (one b _ hb.2.1 hb.2.2).1,
    (one c _ hc.2.1 hc.2.2).1, (one a _ ha.2.1 ha.2.2).2, (one b _ hb.2.1 hb.2.2).2,
    (one c _ hc.2.1 hc.2.2).2, ?_⟩
  simp [find_family, find_family_from, ha.1]

theorem generate_families_cat_dog_bad_witness :
    (1 : Int) ≤ 1 ∧
    ∃ a b c : Family String,
      generate_families String.data 1
        (some (["cat", "dog", "bad"].map some ++ none :: [])) 'd' = some [a, b, c] ∧
      a.signature = "___".data ∧ b.signature = "d__".data ∧ c.signature = "__d".data ∧
      a.num_words = 1 ∧ b.num_words = 1 ∧ c.num_words = 1 ∧
      a.word_ptrs.take 1 = [Slot.ptr "cat"] ∧ b.word_ptrs.take 1 = [Slot.ptr "dog"] ∧
      c.word_ptrs.take 1 = [Slot.ptr "bad"] ∧
      find_family [a, b, c] "___".data = some 0 :=
  ⟨by decide, generate_families_cat_dog_bad 1 (by decide) []⟩

/-! ## Cells past the count, non-empty families, reordered word lists -/

theorem holds_null_cells {α : Type} {f : Family α} {ws : List α} (h : Holds f ws) (i : Nat)
    (h1 : f.num_words ≤ (i : Int)) (h2 : (i : Int) ≤ f.max_words) :
    f.word_ptrs[i]? = some Slot.null := by
  obtain ⟨e1, e2, e3⟩ := h
  have hl : (ws.map (Slot.ptr : α → Slot α)).length ≤ i := by
    rw [List.length_map]; omega
  rw [e3, List.getElem?_append_right hl]
  apply List.getElem?_replicate_of_lt
  rw [List.length_map]
  omega

theorem holds_wellFormed {α : Type} {f : Family α} {ws : List α} (h : Holds f ws) :
    WellFormed f :=
  ⟨by have := h.1; omega, h.2.1, h.length_eq⟩

/-- C18: for a growth increment `k` of at least 1, every family reached from
`new_family` by a sequence of `add_word_to_family` calls has a `word_ptrs`
block of `max_words + 1` cells in which every cell at an index `i` with
`num_words <= i <= max_words` is NULL; in particular the cell right after the
last held word is NULL, also right after a growth step. -/
theorem word_ptrs_null_terminated {α : Type} (k : Int) (hk : 1 ≤ k) (sig : List Char)
    (ws : List α) :
    ∃ f0 f : Family α, new_family k sig = some f0 ∧
      append_all k (some f0) ws = some (some f) ∧
      (f.word_ptrs.length : Int) = f.max_words + 1 ∧
      (∀ i : Nat, f.num_words ≤ (i : Int) → (i : Int) ≤ f.max_words →
        f.word_ptrs[i]? = some Slot.null) ∧
      f.num_words = (ws.length : Int) ∧
      f.word_ptrs[ws.length]? = some Slot.null := by
  obtain ⟨f0, h0, _, hh0⟩ := new_family_holds (α := α) k (by omega) sig
  obtain ⟨f, h1, _, h2⟩ := append_all_holds k hk ws f0 [] hh0
  simp only [List.nil_append] at h2
  refine ⟨f0, f, h0, h1, h2.length_eq, fun i hi1 hi2 => holds_null_cells h2 i hi1 hi2, h2.1, ?_⟩
  have := h2.1
  have := h2.2.1
  exact holds_null_cells h2 ws.length (by omega) (by omega)

theorem word_ptrs_null_terminated_witness :
    (1 : Int) ≤ 2 ∧
    ∃ f0 f : Family String, new_family 2 "_a_".data = some f0 ∧
      append_all 2 (some f0) ["cat", "bat", "rat"] = some (some f) ∧
      (f.word_ptrs.length : Int) = f.max_words + 1 ∧
      (∀ i : Nat, f.num_words ≤ (i : Int) → (i : Int) ≤ f.max_words →
        f.word_ptrs[i]? = some Slot.null) ∧
      f.num_words = ((["cat", "bat", "rat"] : List String).length : Int) ∧
      f.word_ptrs[(["cat", "bat", "rat"] : List String).length]? = some Slot.null :=
  ⟨by decide, word_ptrs_null_terminated 2 (by decide) "_a_".data ["cat", "bat", "rat"]⟩

theorem get_random_word_holds {α : Type} (f : Family α) (ws : List α) (h : Holds f ws)
    (hpos : 0 < f.num_words) (r : Int) (hr : 0 ≤ r) :
    ∃ w ∈ ws, get_random_word_from_family (some f) r = some (Slot.ptr w) := by
  obtain ⟨h1, h2⟩ := get_random_word_at f (holds_wellFormed h) hpos r hr
  have hlen : (r % f.num_words).toNat < ws.length := by
    have := h.1; omega
  refine ⟨ws[(r % f.num_words).toNat], List.getElem_mem _, ?_⟩
  rw [h1, h.2.2, List.getElem?_append_left (by simpa using hlen)]
  simp [List.getElem?_eq_getElem hlen]

/-- C19: for a NULL-terminated word list, any letter and a growth increment
of at least 1, every family of the list `generate_families` returns has
`num_words >= 1`; so for a family of that list returned by `find_family` or
`find_biggest_family` the divisor in `get_random_word_from_family` is not
zero, and the call returns a held word for every non-negative `r`. -/
theorem generate_families_no_empty_family {α : Type} (deref : α → List Char) (k : Int)
    (hk : 1 ≤ k) (ws : List α) (rest : List (Option α)) (letter : Char) :
    ∃ fams, generate_families deref k (some (ws.map some ++ none :: rest)) letter = some fams ∧
      (∀ f ∈ fams, 1 ≤ f.num_words) ∧
      (∀ (s : List Char) (i : Nat), find_family fams s = some i →
        ∃ f : Family α, fams[i]? = some f ∧ f.num_words ≠ 0 ∧
          ∀ r : Int, 0 ≤ r → ∃ w ∈ ws, get_random_word_from_family (some f) r = some (Slot.ptr w)) ∧
      (∀ i : Nat, find_biggest_family fams = some i →
        ∃ f : Family α, fams[i]? = some f ∧ f.num_words ≠ 0 ∧
          ∀ r : Int, 0 ≤ r → ∃ w ∈ ws, get_random_word_from_family (some f) r = some (Slot.ptr w)) := by
  obtain ⟨fams, h1, h2, h3⟩ := generate_families_shape deref k hk ws rest letter
  have hpos : ∀ f ∈ fams, 1 ≤ f.num_words := by
    intro f hf
    have hs : f.signature ∈ fams.map fun f => f.signature := List.mem_map.2 ⟨f, hf, rfl⟩
    rw [h2, mem_first_seen] at hs
    obtain ⟨w, hw, hws⟩ := List.mem_map.1 hs
    have hmem : w ∈ ws.filter fun w => signature_of (deref w) letter = f.signature := by
      rw [List.mem_filter]
      exact ⟨hw, by simpa using hws⟩
    have hlen := List.length_pos_of_mem hmem
    rw [(h3 f hf).1]
    omega
  have hrand : ∀ f ∈ fams, f.num_words ≠ 0 ∧
      ∀ r : Int, 0 ≤ r → ∃ w ∈ ws, get_random_word_from_family (some f) r = some (Slot.ptr w) := by
    intro f hf
    have := hpos f hf
    refine ⟨by omega, ?_⟩
    intro r hr
    obtain ⟨w, hw, hg⟩ := get_random_word_holds f _ (h3 f hf) (by omega) r hr
    exact ⟨w, (List.mem_filter.1 hw).1, hg⟩
  refine ⟨fams, h1, hpos, ?_, ?_⟩
  · intro s i hi
    obtain ⟨⟨f, hf, _⟩, _⟩ := find_family_eq_some s fams i hi
    exact ⟨f, hf, hrand f (List.mem_iff_getElem?.2 ⟨i, hf⟩)⟩
  · intro i hi
    cases fams with
    | nil => simp [find_biggest_family] at hi
    | cons f0 t =>
      obtain ⟨j, r, hj, hr, _, _⟩ := find_biggest_family_spec f0 t
      rw [hj, Option.some.injEq] at hi
      rw [← hi]
      exact ⟨r, hr, hrand r (List.mem_iff_getElem?.2 ⟨j, hr⟩)⟩

theorem generate_families_no_empty_family_witness :
    (1 : Int) ≤ 1 ∧
    ∃ fams, generate_families String.data 1
        (some (["cat", "dog", "cot"].map some ++ none :: [])) 'o' = some fams ∧
      (∀ f ∈ fams, 1 ≤ f.num_words) ∧
      (∀ (s : List Char) (i : Nat), find_family fams s = some i →
        ∃ f : Family String, fams[i]? = some f ∧ f.num_words ≠ 0 ∧
          ∀ r : Int, 0 ≤ r → ∃ w ∈ ["cat", "dog", "cot"],
            get_random_word_from_family (some f) r = some (Slot.ptr w)) ∧
      (∀ i : Nat, find_biggest_family fams = some i →
        ∃ f : Family String, fams[i]? = some f ∧ f.num_words ≠ 0 ∧
          ∀ r : Int, 0 ≤ r → ∃ w ∈ ["cat", "dog", "cot"],
            get_random_word_from_family (some f) r = some (Slot.ptr w)) :=
  ⟨by decide,
    generate_families_no_empty_family String.data 1 (by decide) ["cat", "dog", "cot"] [] 'o'⟩

/-- C20: for any letter, a growth increment of at least 1 and two word lists
that are permutations of each other, the two lists `generate_families`
returns have the same signatures (each once), and two families with the same
signature hold the same words up to order, hence the same `num_words`. -/
theorem generate_families_perm {α : Type} (deref : α → List Char) (k : Int) (hk : 1 ≤ k)
    (ws ws' : List α) (hperm : ws.Perm ws') (rest rest' : List (Option α)) (letter : Char) :
    ∃ fams fams' : List (Family α),
      generate_families deref k (some (ws.map some ++ none :: rest)) letter = some fams ∧
      generate_families deref k (some (ws'.map some ++ none :: rest')) letter = some fams' ∧
      (∀ s : List Char, s ∈ fams.map (fun f => f.signature) ↔
        s ∈ fams'.map (fun f => f.signature)) ∧
      (fams.map fun f => f.signature).Perm (fams'.map fun f => f.signature) ∧
      ∀ f ∈ fams, ∀ f' ∈ fams', f.signature = f'.signature →
        (f.word_ptrs.take f.num_words.toNat).Perm (f'.word_ptrs.take f'.num_words.toNat) ∧
        f.num_words = f'.num_words := by
  obtain ⟨fams, h1, h2, h3⟩ := generate_families_shape deref k hk ws rest letter
  obtain ⟨fams', h1', h2', h3'⟩ := generate_families_shape deref k hk ws' rest' letter
  have hmem : ∀ s : List Char, s ∈ fams.map (fun f => f.signature) ↔
      s ∈ fams'.map (fun f => f.signature) := by
    intro s
    rw [h2, h2', mem_first_seen, mem_first_seen]
    exact (hperm.map _).mem_iff
  refine ⟨fams, fams', h1, h1', hmem, ?_, ?_⟩
  · apply (List.perm_ext_iff_of_nodup _ _).2 hmem
    · rw [h2]; exact first_seen_nodup _
    · rw [h2']; exact first_seen_nodup _
  · intro f hf f' hf' e
    have hp : (ws.filter fun w => signature_of (deref w) letter = f.signature).Perm
        (ws'.filter fun w => signature_of (deref w) letter = f'.signature) := by
      rw [← e]
      exact hperm.filter _
    have a1 := (h3 f hf).held_eq
    have a2 := (h3' f' hf').held_eq
    unfold held at a1 a2
    refine ⟨?_, ?_⟩
    · rw [a1, a2]
      exact hp.map _
    · rw [(h3 f hf).1, (h3' f' hf').1, hp.length_eq]

theorem generate_families_perm_witness :
    (1 : Int) ≤ 1 ∧ (["cat", "dog"] : List String).Perm ["dog", "cat"] ∧
    ∃ fams fams' : List (Family String),
      generate_families String.data 1 (some (["cat", "dog"].map some ++ none :: [])) 'o'
        = some fams ∧
      generate_families String.data 1 (some (["dog", "cat"].map some ++ none :: [])) 'o'
        = some fams' ∧
      (∀ s : List Char, s ∈ fams.map (fun f => f.signature) ↔
        s ∈ fams'.map (fun f => f.signature)) ∧
      (fams.map fun f => f.signature).Perm (fams'.map fun f => f.signature) ∧
      ∀ f ∈ fams, ∀ f' ∈ fams', f.signature = f'.signature →
        (f.word_ptrs.take f.num_words.toNat).Perm (f'.word_ptrs.take f'.num_words.toNat) ∧
        f.num_words = f'.num_words :=
  ⟨by decide, List.Perm.swap "dog" "cat" [],
    generate_families_perm String.data 1 (by decide) ["cat", "dog"] ["dog", "cat"]
      (List.Perm.swap "dog" "cat" []) [] [] 'o'⟩

end Misfortune
